import Mathlib

/-!
Verification of the similarity-matching core of the kapaCheck repository.

The definitions below are a shallow embedding of `src/lib/similarity.ts` and
`src/app/api/consolidation-opportunities/route.ts`:

* texts are Lean `String`s and a token is its list of characters (`Tok`);
* a JavaScript `Map<string, number>` is an association list with distinct keys,
  in insertion order, and `Map.set`/`Map.get` are `bump`/`mget`;
* JavaScript numbers produced by the scoring pipeline are modelled as real
  numbers (all intermediate counts are integers, so only `Math.sqrt` and the
  final division leave ℚ);
* `Set` objects are lists without duplicates, in insertion order; the `seen`
  set of `bucketedComparison`, keyed by the string `i + "-" + j` (which is in
  bijection with the index pair, as `i < j` and decimal digit strings contain
  no dash), is modelled as a list of index pairs.
-/

open List

open scoped Classical

namespace KapaCheck

/-- A token: the character data of a JavaScript string. -/
abbrev Tok := List Char

/-- The character class `\s` of JavaScript regular expressions, used both by
the replacement step and the split step of `tokenize`. -/
def isWhite (c : Char) : Bool :=
  c == ' ' || c == '\t' || c == '\n' || c == '\x0b' || c == '\x0c' || c == '\r' ||
    c == '\u00A0' || c == '\u1680' ||
    c == '\u2000' || c == '\u2001' || c == '\u2002' || c == '\u2003' ||
    c == '\u2004' || c == '\u2005' || c == '\u2006' || c == '\u2007' ||
    c == '\u2008' || c == '\u2009' || c == '\u200A' ||
    c == '\u2028' || c == '\u2029' || c == '\u202F' || c == '\u205F' ||
    c == '\u3000' || c == '\uFEFF'

/-- One character of `text.toLowerCase().replace(/[^a-z0-9\s]/g, " ")`:
lowercase the character, then replace it by a space unless it is a lowercase
ASCII letter, a digit, or whitespace. -/
def lowerReplace (c : Char) : Char :=
  let lc := c.toLower
  if ('a' ≤ lc && lc ≤ 'z') || ('0' ≤ lc && lc ≤ '9') || isWhite lc then lc else ' '

/-- Splitting on whitespace as `.split(/\s+/)` does, keeping the (possibly
empty) fragment between two consecutive whitespace characters: `acc` is the
reversed fragment read so far. -/
def wordsAux : List Char → List Char → List Tok
  | [], acc => [acc.reverse]
  | c :: cs, acc =>
    if isWhite c then acc.reverse :: wordsAux cs [] else wordsAux cs (c :: acc)

/-- The stopword set of `src/lib/similarity.ts` (`STOPWORDS`). -/
def STOPWORDS : List Tok :=
  (["a", "an", "the", "and", "or", "but", "in", "on", "at", "to", "for",
    "of", "with", "by", "from", "as", "is", "was", "are", "were", "been",
    "be", "have", "has", "had", "do", "does", "did", "will", "would", "could",
    "should", "may", "might", "must", "shall", "can", "need", "dare", "ought",
    "used", "it", "its", "this", "that", "these", "those", "i", "you", "he",
    "she", "we", "they", "what", "which", "who", "whom", "when", "where",
    "why", "how", "all", "each", "every", "both", "few", "more", "most",
    "other", "some", "such", "no", "nor", "not", "only", "own", "same", "so",
    "than", "too", "very", "just", "also", "now", "here", "there", "then",
    "once", "if", "because", "until", "while", "about", "into", "through",
    "during", "before", "after", "above", "below", "between", "under", "again",
    "further", "any", "our", "your", "their", "my", "his", "her", "up", "down",
    "out", "off", "over", "am", "being", "get", "got", "getting", "make",
    "made", "let", "us", "me", "him", "them", "myself", "yourself", "himself",
    "herself", "itself", "ourselves", "themselves", "much", "many", "like",
    "want", "please", "thanks", "thank", "hi", "hello", "hey"] : List String).map
    String.toList

/-- The final filter of `tokenize`: keep words longer than one character that
are not stopwords. -/
def tokenOk (w : Tok) : Bool :=
  decide (1 < w.length) && !(decide (w ∈ STOPWORDS))

/-- `tokenize` from `src/lib/similarity.ts`: guard falsy (empty) input, then
lowercase, replace every character outside `[a-z0-9\s]` by a space, split on
whitespace, and keep the words accepted by `tokenOk`. -/
def tokenize (s : String) : List Tok :=
  if s.data.isEmpty then []
  else (wordsAux (s.data.map lowerReplace) []).filter tokenOk

/-- Splitting a character stream into the maximal runs of characters kept by
`keep`, discarding the separators. -/
def runsOf (keep : Char → Bool) (l : List Char) : List Tok :=
  match l with
  | [] => []
  | c :: cs =>
    if keep c then (c :: cs).takeWhile keep :: runsOf keep ((c :: cs).dropWhile keep)
    else runsOf keep cs
termination_by l.length
decreasing_by
  · simp only [List.dropWhile_cons]
    simp_all only [if_true]
    exact Nat.lt_succ_of_le (List.dropWhile_sublist _).length_le
  · simp only [List.length_cons]
    omega

/-- Splitting on runs of whitespace, as the spec words it: only the maximal
runs of non-whitespace characters are produced, with no empty fragments. -/
def splitRuns (l : List Char) : List Tok := runsOf (fun c => !isWhite c) l

/-- The reference tokenizer pipeline exactly as §4.1 of the spec words it:
lowercase the input, replace each character that is not a lowercase ASCII
letter, digit, or whitespace with a single space, split on runs of whitespace,
drop tokens of length ≤ 1, then drop stopword tokens. -/
def tokenizeSpec (s : String) : List Tok :=
  ((splitRuns (s.data.map lowerReplace)).filter fun w => decide (1 < w.length)).filter
    fun w => !(decide (w ∈ STOPWORDS))

/-! ### Term-frequency maps

A JavaScript `Map<string, number>` is modelled as an association list with
distinct keys kept in insertion order. -/

/-- `Map.get` on the association-list model: the value bound to `k`, if any. -/
def mget {kk vv : Type} [DecidableEq kk] (m : List (kk × vv)) (k : kk) : Option vv :=
  match m with
  | [] => none
  | p :: ps => if p.1 = k then some p.2 else mget ps k

/-- The keys of a map, in insertion order. -/
def mkeys {kk vv : Type} (m : List (kk × vv)) : List kk := m.map Prod.fst

/-- `m.set(k, (m.get(k) || 0) + 1)`: a bound key is updated in place, an
unbound key is appended at the end. -/
def bump {kk : Type} [DecidableEq kk] (m : List (kk × Nat)) (k : kk) : List (kk × Nat) :=
  if (mget m k).isSome then
    m.map (fun p => if p.1 = k then (p.1, p.2 + 1) else p)
  else m ++ [(k, 1)]

/-- `termFrequency` from `src/lib/similarity.ts`: count the occurrences of each
token by folding `Map.set(token, (Map.get(token) || 0) + 1)` over the tokens. -/
def termFrequency (tokens : List Tok) : List (Tok × Nat) := tokens.foldl bump []

/-- Number of occurrences of `k` in `ks`. -/
def occCount {kk : Type} [DecidableEq kk] (k : kk) (ks : List kk) : Nat :=
  ks.countP (fun t => decide (t = k))

/-! ### Cosine similarity -/

/-- `tf.get(k) || 0`: the frequency of `k`, zero when absent. -/
def cnt {kk : Type} [DecidableEq kk] (m : List (kk × Nat)) (k : kk) : Nat :=
  (mget m k).getD 0

/-- The dot-product loop of `cosineSimilarity`: over the entries of `tf1`,
accumulate `freq1 * (tf2.get(term) || 0)`. -/
def dotProduct (tf1 tf2 : List (Tok × Nat)) : Nat :=
  (tf1.map (fun p => p.2 * cnt tf2 p.1)).sum

/-- A magnitude loop of `cosineSimilarity` before taking the square root:
the sum of `freq * freq` over the entries. -/
def sumSquares (tf : List (Tok × Nat)) : Nat :=
  (tf.map (fun p => p.2 * p.2)).sum

/-- `cosineSimilarity` from `src/lib/similarity.ts`, with JavaScript numbers
modelled as exact reals: return 0 when either map is empty, compute the dot
product and the two Euclidean magnitudes, return 0 when a magnitude is zero,
otherwise divide. -/
noncomputable def cosineSimilarity (tf1 tf2 : List (Tok × Nat)) : ℝ :=
  if tf1.length = 0 ∨ tf2.length = 0 then 0
  else if Real.sqrt (sumSquares tf1) = 0 ∨ Real.sqrt (sumSquares tf2) = 0 then 0
  else (dotProduct tf1 tf2 : ℝ) / (Real.sqrt (sumSquares tf1) * Real.sqrt (sumSquares tf2))

/-! ### Text-level scoring and the ranked matcher -/

/-- `textSimilarity` from `src/lib/similarity.ts`: tokenize both texts, build
the term-frequency maps, and compare them by cosine similarity. -/
noncomputable def textSimilarity (text1 text2 : String) : ℝ :=
  cosineSimilarity (termFrequency (tokenize text1)) (termFrequency (tokenize text2))

/-- `compareSlackToLinear` from `src/lib/similarity.ts`: the issue text is the
title followed, when the description is truthy (present and nonempty), by a
single space and the description. -/
noncomputable def compareSlackToLinear (slackText linearTitle : String)
    (linearDescription : Option String) : ℝ :=
  textSimilarity slackText
    (match linearDescription with
     | some d => if d.isEmpty then linearTitle else linearTitle ++ " " ++ d
     | none => linearTitle)

/-- A record with a title and an optional description: the generic candidate
shape accepted by `findSimilarIssues`. -/
structure TextRecord where
  title : String
  description : Option String
deriving DecidableEq

/-- `findSimilarIssues` from `src/lib/similarity.ts`: score every candidate
against the query, keep scores at least `minScore`, and stable-sort by
descending score (`Array.prototype.sort` is stable; the comparator is
`b.score - a.score`). -/
noncomputable def findSimilarIssues (slackText : String) (linearIssues : List TextRecord)
    (minScore : ℝ) : List (TextRecord × ℝ) :=
  ((linearIssues.map (fun issue =>
      (issue, compareSlackToLinear slackText issue.title issue.description))).filter
    (fun r => decide (minScore ≤ r.2))).mergeSort (fun a b => decide (b.2 ≤ a.2))

/-! ### The consolidation route -/

/-- A Linear issue as the consolidation route receives it. -/
structure LinearIssue where
  id : String
  title : String
  description : Option String
deriving DecidableEq

instance : Inhabited LinearIssue := ⟨⟨"", "", none⟩⟩

/-- A similarity pair produced by the consolidation route. -/
structure SimilarityPair where
  issueA : LinearIssue
  issueB : LinearIssue
  similarity : ℝ

/-- The comparable text of an issue inside the consolidation route:
`issue.title + " " + (issue.description || "")`. -/
def comparableText (iss : LinearIssue) : String :=
  iss.title ++ " " ++ iss.description.getD ""

/-- `calculateIssueSimilarity` from the consolidation route. -/
noncomputable def calculateIssueSimilarity (issueA issueB : LinearIssue) : ℝ :=
  cosineSimilarity (termFrequency (tokenize (comparableText issueA)))
    (termFrequency (tokenize (comparableText issueB)))

/-- `getTopTokens` from the consolidation route: sort the term-frequency
entries by descending count and keep the first `n` tokens; the resulting
JavaScript `Set` is a duplicate-free list in that order. -/
def getTopTokens (text : String) (n : Nat) : List Tok :=
  (((termFrequency (tokenize text)).mergeSort (fun a b => decide (b.2 ≤ a.2))).take n).map
    Prod.fst

/-- `bruteForceComparison` from the consolidation route: for every `i < j` in
range, score the pair and keep it when the similarity reaches the threshold. -/
noncomputable def bruteForceComparison (issues : List LinearIssue) (threshold : ℝ) :
    List SimilarityPair :=
  (List.range issues.length).flatMap (fun i =>
    (List.range' (i + 1) (issues.length - (i + 1))).filterMap (fun j =>
      if threshold ≤ calculateIssueSimilarity (issues.getD i default) (issues.getD j default)
      then
        some ⟨issues.getD i default, issues.getD j default,
          calculateIssueSimilarity (issues.getD i default) (issues.getD j default)⟩
      else none))

/-- One insertion into the inverted token index:
`if (!tokenIndex.has(token)) tokenIndex.set(token, new Set());
tokenIndex.get(token)!.add(i)` — the `Set.add` appends only when absent. -/
def addToIndex (idx : List (Tok × List Nat)) (t : Tok) (i : Nat) : List (Tok × List Nat) :=
  if (mget idx t).isSome then
    idx.map (fun p => if p.1 = t then (p.1, if i ∈ p.2 then p.2 else p.2 ++ [i]) else p)
  else idx ++ [(t, [i])]

/-- `tokenIndex.get(t)`: the indices of the issues whose signature set holds
`t`, an empty set when the token is unindexed. -/
def idxGet (idx : List (Tok × List Nat)) (t : Tok) : List Nat :=
  (mget idx t).getD []

/-- The index-building loop of `bucketedComparison`: for each issue index `i`
in order, insert every token of its signature set. -/
def buildTokenIndex (issueTokens : List (List Tok)) : List (Tok × List Nat) :=
  (issueTokens.enum).foldl
    (fun idx it => it.2.foldl (fun idx t => addToIndex idx t it.1) idx) []

/-- The candidate tally of `bucketedComparison` for issue `i`: for each token
of its signature, for each indexed issue `j > i` sharing that token, run
`candidates.set(j, (candidates.get(j) || 0) + 1)`. -/
def tallyFor (idx : List (Tok × List Nat)) (sig : List Tok) (i : Nat) : List (Nat × Nat) :=
  sig.foldl (fun cand t =>
    (idxGet idx t).foldl (fun cand j => if i < j then bump cand j else cand) cand) []

/-- The emission loop of `bucketedComparison` for issue `i`: every candidate
`j` sharing at least 2 signature tokens whose pair key is unseen is marked
seen, scored, and pushed when the similarity reaches the threshold. -/
noncomputable def emitFor (issues : List LinearIssue) (threshold : ℝ) (i : Nat)
    (cands : List (Nat × Nat)) (acc : List (Nat × Nat) × List SimilarityPair) :
    List (Nat × Nat) × List SimilarityPair :=
  cands.foldl (fun acc jc =>
    if 2 ≤ jc.2 then
      if (i, jc.1) ∈ acc.1 then acc
      else
        ((i, jc.1) :: acc.1,
          if threshold ≤ calculateIssueSimilarity (issues.getD i default)
              (issues.getD jc.1 default) then
            acc.2 ++ [⟨issues.getD i default, issues.getD jc.1 default,
              calculateIssueSimilarity (issues.getD i default) (issues.getD jc.1 default)⟩]
          else acc.2)
    else acc) acc

/-- `bucketedComparison` from the consolidation route: build each issue's
signature set and the inverted index, then for each issue in order tally its
candidates and emit the surviving pairs. -/
noncomputable def bucketedComparison (issues : List LinearIssue) (threshold : ℝ) :
    List SimilarityPair :=
  let issueTokens := issues.map (fun iss => getTopTokens (comparableText iss) 10)
  let tokenIndex := buildTokenIndex issueTokens
  ((List.range issues.length).foldl
    (fun acc i => emitFor issues threshold i (tallyFor tokenIndex (issueTokens.getD i []) i) acc)
    ([], [])).2

/-- The strategy selection and final sort of the route's `POST` handler — the
spec's `findConsolidationPairs`: brute force for at most 400 issues, the
bucketed approximation beyond 400, then sort by descending similarity. -/
noncomputable def findConsolidationPairs (issues : List LinearIssue) (threshold : ℝ) :
    List SimilarityPair :=
  (if issues.length > 400 then bucketedComparison issues threshold
   else bruteForceComparison issues threshold).mergeSort
    (fun a b => decide (b.similarity ≤ a.similarity))

/-! ### Characterizing the two strategies -/

/-- The similarity the route computes for the issues at positions `i` and `j`. -/
noncomputable def simAt (issues : List LinearIssue) (i j : Nat) : ℝ :=
  calculateIssueSimilarity (issues.getD i default) (issues.getD j default)

/-- The pair object the route pushes for positions `i` and `j`. -/
noncomputable def pairAt (issues : List LinearIssue) (i j : Nat) : SimilarityPair :=
  ⟨issues.getD i default, issues.getD j default, simAt issues i j⟩

/-- The flattened stream of bumps performed by `tallyFor`. -/
def tallyStream (idx : List (Tok × List Nat)) (sig : List Tok) (i : Nat) : List Nat :=
  sig.flatMap (fun t => (idxGet idx t).filter (fun j => decide (i < j)))

/-- The pair a tally entry contributes: it must pass the shared-token gate and
the similarity threshold. -/
noncomputable def emitEntry (issues : List LinearIssue) (threshold : ℝ) (i : Nat)
    (jc : Nat × Nat) : Option SimilarityPair :=
  if 2 ≤ jc.2 ∧ threshold ≤ simAt issues i jc.1 then some (pairAt issues i jc.1) else none

/-- The signature sets of all issues, in order. -/
def issueSigs (issues : List LinearIssue) : List (List Tok) :=
  issues.map (fun iss => getTopTokens (comparableText iss) 10)

/-- The candidate tally `bucketedComparison` builds for issue `i`. -/
def candsAt (issues : List LinearIssue) (i : Nat) : List (Nat × Nat) :=
  tallyFor (buildTokenIndex (issueSigs issues)) ((issueSigs issues).getD i []) i

/-! ### Distinctness of returned pairs -/

/-- Two similarity pairs name the same unordered pair of issue ids. -/
def sameUnordered (p q : SimilarityPair) : Prop :=
  (p.issueA.id = q.issueA.id ∧ p.issueB.id = q.issueB.id) ∨
    (p.issueA.id = q.issueB.id ∧ p.issueB.id = q.issueA.id)

/-! ### Tokenizer lemmas -/

theorem wordsAux_run (w : List Char) (rest : List Char) (acc : List Char)
    (hw : ∀ c ∈ w, isWhite c = false) :
    wordsAux (w ++ rest) acc = wordsAux rest (w.reverse ++ acc) := by
  induction w generalizing acc with
  | nil => simp
  | cons c cs ih =>
    have hc : isWhite c = false := hw c (mem_cons_self c cs)
    simp only [cons_append, wordsAux, hc, Bool.false_eq_true, if_false]
    show wordsAux (cs ++ rest) (c :: acc) = wordsAux rest ((c :: cs).reverse ++ acc)
    rw [ih _ (fun x hx => hw x (mem_cons_of_mem c hx))]
    simp

theorem splitRuns_eq_filter (l : List Char) :
    splitRuns l = (wordsAux l []).filter (fun w => !w.isEmpty) := by
  suffices h : ∀ (n : ℕ) (l : List Char), l.length ≤ n →
      splitRuns l = (wordsAux l []).filter (fun w => !w.isEmpty) from
    h l.length l le_rfl
  intro n
  induction n with
  | zero =>
    intro l hl
    have hl0 : l = [] := by cases l <;> simp_all
    subst hl0
    rw [splitRuns, runsOf.eq_def]
    simp [wordsAux]
  | succ n ih =>
  intro l hl
  match l with
  | [] =>
    rw [splitRuns, runsOf.eq_def]
    simp [wordsAux]
  | c :: cs =>
    by_cases hc : isWhite c
    · rw [splitRuns, runsOf.eq_def]
      simp only [hc, Bool.not_true, Bool.false_eq_true, if_false]
      rw [show runsOf (fun d => !isWhite d) cs = splitRuns cs from rfl]
      rw [ih cs (by simp only [length_cons] at hl; omega)]
      simp [wordsAux, hc]
    · have hrw : splitRuns (c :: cs) =
          (c :: cs).takeWhile (fun d => !isWhite d) ::
            splitRuns ((c :: cs).dropWhile (fun d => !isWhite d)) := by
        rw [splitRuns, runsOf.eq_def]
        simp only [hc, Bool.not_false, if_true]
        rfl
      rw [hrw]
      set p : Char → Bool := fun d => !isWhite d with hp
      set w := (c :: cs).takeWhile p with hwdef
      set r := (c :: cs).dropWhile p with hrdef
      have hw : ∀ x ∈ w, isWhite x = false := by
        intro x hx
        have := mem_takeWhile_imp hx
        simpa [hp] using this
      have hwr : w ++ r = c :: cs := takeWhile_append_dropWhile ..
      have hwne : w ≠ [] := by
        rw [hwdef, takeWhile_cons_of_pos (by simp [hp, hc])]
        simp
      have hrec : wordsAux (c :: cs) [] = wordsAux r w.reverse := by
        rw [← hwr, wordsAux_run w r [] hw, append_nil]
      have hwemp : w.isEmpty = false := by
        cases hww : w with
        | nil => exact absurd hww hwne
        | cons a as => simp
      match hr : r with
      | [] =>
        rw [hrec, splitRuns, runsOf.eq_def]
        simp [wordsAux, hwemp]
      | d :: ds =>
        have hd : isWhite d = true := by
          have h2 := head?_dropWhile_not p (c :: cs)
          rw [← hrdef] at h2
          simp only [head?_cons] at h2
          simpa [hp] using h2
        have hlen : ds.length ≤ n := by
          have := congrArg List.length hwr
          simp only [length_append, hr, length_cons] at this
          have hwl : 1 ≤ w.length := by
            cases hww : w with
            | nil => exact absurd hww hwne
            | cons a as => simp
          simp only [length_cons] at hl
          omega
        have hds : splitRuns (d :: ds) = splitRuns ds := by
          rw [splitRuns, runsOf.eq_def]
          simp only [hd, Bool.not_true, Bool.false_eq_true, if_false]
          rfl
        rw [hrec, hds, wordsAux]
        simp only [hd, if_true, reverse_reverse, filter_cons, hwemp]
        rw [ih ds hlen]
        simp

theorem tokenize_eq_body (s : String) :
    tokenize s = (wordsAux (s.data.map lowerReplace) []).filter tokenOk := by
  rw [tokenize]
  by_cases h : s.data.isEmpty
  · have hdn : s.data = [] := by simpa using h
    simp [hdn, wordsAux, tokenOk]
  · simp [h]

theorem filter_tokenOk_splitRuns (l : List Char) :
    (wordsAux l []).filter tokenOk = (splitRuns l).filter tokenOk := by
  rw [splitRuns_eq_filter, filter_filter]
  apply filter_congr
  intro w _
  cases hok : tokenOk w
  · simp
  · have hne : w.isEmpty = false := by
      rcases w with _ | ⟨a, as⟩
      · simp [tokenOk] at hok
      · simp
    simp [hne]

theorem wordsAux_append_space (l1 l2 : List Char) (acc : List Char) :
    wordsAux (l1 ++ ' ' :: l2) acc = wordsAux l1 acc ++ wordsAux l2 [] := by
  induction l1 generalizing acc with
  | nil =>
    have hsp : isWhite ' ' = true := by decide
    simp [wordsAux, hsp]
  | cons c cs ih =>
    by_cases hc : isWhite c
    · simp only [cons_append, wordsAux, hc, if_true]
      show acc.reverse :: wordsAux (cs ++ ' ' :: l2) [] =
        acc.reverse :: (wordsAux cs [] ++ wordsAux l2 [])
      rw [ih]
    · simp only [cons_append, wordsAux, hc, Bool.false_eq_true, if_false]
      exact ih _

theorem tokenize_append_space (a b : String) :
    tokenize (a ++ " " ++ b) = tokenize a ++ tokenize b := by
  rw [tokenize_eq_body, tokenize_eq_body, tokenize_eq_body]
  have hdata : (a ++ " " ++ b).data = a.data ++ ' ' :: b.data := by
    simp
  have hsp : lowerReplace ' ' = ' ' := by decide
  rw [hdata, map_append, map_cons, hsp, wordsAux_append_space, filter_append]

theorem tokenize_eq_tokenizeSpec (s : String) : tokenize s = tokenizeSpec s := by
  rw [tokenize_eq_body, tokenizeSpec, filter_tokenOk_splitRuns, filter_filter]
  apply filter_congr
  intro w _
  simp [tokenOk, Bool.and_comm]

theorem tokenize_empty : tokenize "" = [] := by
  rw [tokenize]
  simp

theorem mget_append {kk vv : Type} [DecidableEq kk] (m1 m2 : List (kk × vv)) (k : kk) :
    mget (m1 ++ m2) k = if (mget m1 k).isSome then mget m1 k else mget m2 k := by
  induction m1 with
  | nil => simp [mget]
  | cons p ps ih =>
    by_cases hp : p.1 = k
    · simp [mget, hp]
    · simp [mget, hp, ih]

theorem mget_cons {kk vv : Type} [DecidableEq kk] (p : kk × vv) (ps : List (kk × vv))
    (k : kk) : mget (p :: ps) k = if p.1 = k then some p.2 else mget ps k := rfl

theorem mget_map_modify {kk vv : Type} [DecidableEq kk] (m : List (kk × vv)) (k k' : kk)
    (g : vv → vv) :
    mget (m.map (fun p => if p.1 = k then (p.1, g p.2) else p)) k' =
      if k' = k then (mget m k).map g else mget m k' := by
  induction m with
  | nil => simp [mget]
  | cons p ps ih =>
    by_cases hpk : p.1 = k <;> by_cases hpk2 : p.1 = k'
    · have hk : k' = k := hpk2 ▸ hpk
      simp [map_cons, mget_cons, hpk, hpk2, hk, ih]
    · have hk : ¬(k' = k) := fun h => hpk2 (h ▸ hpk)
      simp [map_cons, mget_cons, hpk, hpk2, hk, Ne.symm hk, ih]
    · have hk : ¬(k' = k) := fun h => hpk (h ▸ hpk2)
      simp [map_cons, mget_cons, hpk, hpk2, hk, ih]
    · simp [map_cons, mget_cons, hpk, hpk2, ih]

theorem mget_map_update {kk : Type} [DecidableEq kk] (m : List (kk × Nat)) (k k' : kk) :
    mget (m.map (fun p => if p.1 = k then (p.1, p.2 + 1) else p)) k' =
      if k' = k then (mget m k).map (· + 1) else mget m k' :=
  mget_map_modify m k k' (· + 1)

theorem mget_bump {kk : Type} [DecidableEq kk] (m : List (kk × Nat)) (k k' : kk) :
    mget (bump m k) k' =
      if k' = k then some ((mget m k).getD 0 + 1) else mget m k' := by
  rw [bump]
  by_cases hs : (mget m k).isSome
  · rw [if_pos hs, mget_map_update]
    by_cases hk : k' = k
    · obtain ⟨v, hv⟩ := Option.isSome_iff_exists.mp hs
      simp [hk, hv]
    · simp [hk]
  · rw [if_neg hs, mget_append]
    have hnone : mget m k = none := Option.not_isSome_iff_eq_none.mp hs
    by_cases hk : k' = k
    · subst hk
      simp [hnone, mget]
    · rw [if_neg hk]
      by_cases hs' : (mget m k').isSome
      · rw [if_pos hs']
      · rw [if_neg hs']
        have h0 : mget m k' = none := Option.not_isSome_iff_eq_none.mp hs'
        rw [h0]
        simp [mget, Ne.symm hk]

theorem mkeys_bump {kk : Type} [DecidableEq kk] (m : List (kk × Nat)) (k : kk) :
    mkeys (bump m k) = if (mget m k).isSome then mkeys m else mkeys m ++ [k] := by
  rw [bump]
  by_cases hs : (mget m k).isSome
  · rw [if_pos hs, if_pos hs, mkeys, mkeys, map_map]
    apply map_congr_left
    intro p _
    by_cases hp : p.1 = k <;> simp [hp]
  · rw [if_neg hs, if_neg hs, mkeys, mkeys]
    simp

theorem isSome_mget_iff {kk vv : Type} [DecidableEq kk] (m : List (kk × vv)) (k : kk) :
    (mget m k).isSome ↔ k ∈ mkeys m := by
  induction m with
  | nil => simp [mget, mkeys]
  | cons p ps ih =>
    by_cases hp : p.1 = k
    · simp [mget, mkeys, hp]
    · rw [mkeys] at ih
      simp only [mget, hp, if_false, mkeys, map_cons, mem_cons]
      rw [ih]
      constructor
      · exact Or.inr
      · rintro (h | h)
        · exact absurd h.symm hp
        · exact h

theorem nodup_mkeys_bump {kk : Type} [DecidableEq kk] (m : List (kk × Nat)) (k : kk)
    (h : (mkeys m).Nodup) : (mkeys (bump m k)).Nodup := by
  rw [mkeys_bump]
  by_cases hs : (mget m k).isSome
  · simpa [hs] using h
  · have hk : k ∉ mkeys m := fun hmem => hs ((isSome_mget_iff m k).mpr hmem)
    simp only [hs, if_false]
    simpa [List.nodup_append] using ⟨h, fun hmem => hk hmem⟩

theorem mget_foldl_bump {kk : Type} [DecidableEq kk] (ks : List kk) (m : List (kk × Nat))
    (k : kk) :
    mget (ks.foldl bump m) k =
      if k ∈ ks then some ((mget m k).getD 0 + occCount k ks) else mget m k := by
  induction ks generalizing m with
  | nil => simp
  | cons a ks ih =>
    rw [foldl_cons, ih]
    by_cases hk : k = a
    · subst hk
      have h1 : mget (bump m k) k = some ((mget m k).getD 0 + 1) := by simp [mget_bump]
      by_cases hmem : k ∈ ks
      · simp only [hmem, if_true, mem_cons, true_or, h1]
        have : occCount k (k :: ks) = occCount k ks + 1 := by
          simp [occCount, countP_cons]
        rw [this, Option.getD_some]
        congr 1
        omega
      · simp only [hmem, if_false, mem_cons, true_or, if_true, h1]
        have : occCount k (k :: ks) = 1 := by
          simp [occCount, countP_cons, countP_eq_zero]
          intro a ha hak
          exact hmem (hak ▸ ha)
        rw [this]
    · have h1 : mget (bump m a) k = mget m k := by simp [mget_bump, hk]
      have h2 : occCount k (a :: ks) = occCount k ks := by
        simp [occCount, countP_cons, Ne.symm hk]
      by_cases hmem : k ∈ ks
      · simp [hmem, hk, h1, h2]
      · simp [hmem, hk, h1, h2, Ne.symm hk]

theorem mget_termFrequency (toks : List Tok) (k : Tok) :
    mget (termFrequency toks) k =
      if k ∈ toks then some (occCount k toks) else none := by
  rw [termFrequency, mget_foldl_bump]
  simp [mget]

theorem nodup_mkeys_foldl {kk : Type} [DecidableEq kk] (ks : List kk) (m : List (kk × Nat))
    (h : (mkeys m).Nodup) : (mkeys (ks.foldl bump m)).Nodup := by
  induction ks generalizing m with
  | nil => simpa using h
  | cons a ks ih => exact ih _ (nodup_mkeys_bump m a h)

theorem nodup_mkeys_termFrequency (toks : List Tok) :
    (mkeys (termFrequency toks)).Nodup :=
  nodup_mkeys_foldl toks [] (by simp [mkeys])

theorem mem_mkeys_termFrequency (toks : List Tok) (k : Tok) :
    k ∈ mkeys (termFrequency toks) ↔ k ∈ toks := by
  rw [← isSome_mget_iff, mget_termFrequency]
  by_cases h : k ∈ toks <;> simp [h]

theorem mem_iff_mget {kk vv : Type} [DecidableEq kk] (m : List (kk × vv))
    (h : (mkeys m).Nodup) (k : kk) (c : vv) :
    (k, c) ∈ m ↔ mget m k = some c := by
  induction m with
  | nil => simp [mget]
  | cons p ps ih =>
    simp only [mkeys, map_cons, nodup_cons] at h
    rw [mem_cons, mget_cons]
    by_cases hp : p.1 = k
    · rw [if_pos hp]
      constructor
      · rintro (hpc | hmem)
        · rw [← hpc]
        · have hk : k ∈ ps.map Prod.fst := by simpa using mem_map_of_mem Prod.fst hmem
          exact absurd hk (hp ▸ h.1)
      · intro hc
        left
        obtain ⟨a, b⟩ := p
        simp only at hp
        simp only [Option.some.injEq] at hc
        rw [hp, hc]
    · rw [if_neg hp, ← ih h.2]
      constructor
      · rintro (hpc | hmem)
        · exact absurd (congrArg Prod.fst hpc.symm) hp
        · exact hmem
      · exact Or.inr

theorem termFrequency_pos (toks : List Tok) (k : Tok) (c : Nat)
    (h : (k, c) ∈ termFrequency toks) : 0 < c := by
  rw [mem_iff_mget _ (nodup_mkeys_termFrequency toks), mget_termFrequency] at h
  by_cases hk : k ∈ toks
  · rw [if_pos hk, Option.some.injEq] at h
    subst h
    rw [occCount, countP_pos_iff]
    exact ⟨k, hk, by simp⟩
  · simp [hk] at h

theorem termFrequency_ne_nil (toks : List Tok) (h : toks ≠ []) :
    termFrequency toks ≠ [] := by
  intro hnil
  match toks, h with
  | a :: toks, _ =>
    have : a ∈ mkeys (termFrequency (a :: toks)) :=
      (mem_mkeys_termFrequency _ a).mpr (mem_cons_self a toks)
    rw [hnil] at this
    simp [mkeys] at this

theorem length_termFrequency (toks : List Tok) :
    (termFrequency toks).length = toks.toFinset.card := by
  have h1 : (termFrequency toks).length = (mkeys (termFrequency toks)).length := by
    simp [mkeys]
  have h2 : (mkeys (termFrequency toks)).toFinset = toks.toFinset := by
    ext t
    simp [mem_mkeys_termFrequency]
  rw [h1, ← List.toFinset_card_of_nodup (nodup_mkeys_termFrequency toks), h2]

theorem cnt_eq_zero_of_not_mem {kk : Type} [DecidableEq kk] (m : List (kk × Nat)) (t : kk)
    (h : t ∉ mkeys m) : cnt m t = 0 := by
  rw [cnt]
  have : mget m t = none := by
    rcases ho : mget m t with _ | v
    · rfl
    · exact absurd ((isSome_mget_iff m t).mp (by rw [ho]; rfl)) h
  rw [this]
  rfl

theorem cnt_of_mem {kk : Type} [DecidableEq kk] (m : List (kk × Nat))
    (h : (mkeys m).Nodup) (p : kk × Nat) (hp : p ∈ m) : cnt m p.1 = p.2 := by
  rw [cnt, (mem_iff_mget m h p.1 p.2).mp (by simpa using hp), Option.getD_some]

theorem sum_map_entries {kk : Type} [DecidableEq kk] {M : Type} [AddCommMonoid M]
    (m : List (kk × Nat)) (h : (mkeys m).Nodup) (F : kk → Nat → M) :
    (m.map (fun p => F p.1 p.2)).sum = ∑ t ∈ (mkeys m).toFinset, F t (cnt m t) := by
  induction m with
  | nil => simp [mkeys]
  | cons p ps ih =>
    simp only [mkeys, map_cons, nodup_cons] at h
    obtain ⟨hp, hps⟩ := h
    rw [map_cons, sum_cons]
    rw [show mkeys (p :: ps) = p.1 :: mkeys ps from rfl, List.toFinset_cons,
      Finset.sum_insert (by simpa [mkeys] using hp)]
    congr 1
    · rw [cnt, mget_cons, if_pos rfl, Option.getD_some]
    · rw [ih hps]
      apply Finset.sum_congr rfl
      intro t ht
      have htmem : t ∈ mkeys ps := by simpa [mkeys] using ht
      have htne : p.1 ≠ t := fun he => hp (by rw [he]; simpa [mkeys] using htmem)
      rw [cnt, cnt, mget_cons, if_neg htne]

theorem dotProduct_eq_sum {M : Type} [CommSemiring M] (tf1 tf2 : List (Tok × Nat))
    (h1 : (mkeys tf1).Nodup) :
    (dotProduct tf1 tf2 : M) =
      ∑ t ∈ (mkeys tf1).toFinset, (cnt tf1 t : M) * (cnt tf2 t : M) := by
  rw [dotProduct, Nat.cast_list_sum, map_map]
  rw [show (Nat.cast : Nat → M) ∘ (fun p : Tok × Nat => p.2 * cnt tf2 p.1) =
      fun p : Tok × Nat => (fun t n => (n : M) * (cnt tf2 t : M)) p.1 p.2 from
    funext fun p => by simp [Nat.cast_mul]]
  rw [sum_map_entries tf1 h1 (fun t n => (n : M) * (cnt tf2 t : M))]

theorem sumSquares_eq_sum {M : Type} [CommSemiring M] (tf : List (Tok × Nat))
    (h : (mkeys tf).Nodup) :
    (sumSquares tf : M) = ∑ t ∈ (mkeys tf).toFinset, (cnt tf t : M) * (cnt tf t : M) := by
  rw [sumSquares, Nat.cast_list_sum, map_map]
  rw [show (Nat.cast : Nat → M) ∘ (fun p : Tok × Nat => p.2 * p.2) =
      fun p : Tok × Nat => (fun t n => (n : M) * (n : M)) p.1 p.2 from
    funext fun p => by simp [Nat.cast_mul]]
  rw [sum_map_entries tf h (fun t n => (n : M) * (n : M))]

theorem dotProduct_le_sqrt (tf1 tf2 : List (Tok × Nat))
    (h1 : (mkeys tf1).Nodup) (h2 : (mkeys tf2).Nodup) :
    (dotProduct tf1 tf2 : ℝ) ≤
      Real.sqrt (sumSquares tf1) * Real.sqrt (sumSquares tf2) := by
  set K := (mkeys tf1).toFinset ∪ (mkeys tf2).toFinset with hK
  have hdot : (dotProduct tf1 tf2 : ℝ) = ∑ t ∈ K, (cnt tf1 t : ℝ) * (cnt tf2 t : ℝ) := by
    rw [dotProduct_eq_sum tf1 tf2 h1]
    apply Finset.sum_subset Finset.subset_union_left
    intro t _ ht1
    rw [cnt_eq_zero_of_not_mem tf1 t (by simpa using ht1)]
    simp
  have hs1 : (sumSquares tf1 : ℝ) = ∑ t ∈ K, (cnt tf1 t : ℝ) ^ 2 := by
    have e1 : ∑ t ∈ (mkeys tf1).toFinset, (cnt tf1 t : ℝ) * (cnt tf1 t : ℝ) =
        ∑ t ∈ (mkeys tf1).toFinset, (cnt tf1 t : ℝ) ^ 2 :=
      Finset.sum_congr rfl (fun t _ => by ring)
    rw [sumSquares_eq_sum tf1 h1, e1]
    apply Finset.sum_subset Finset.subset_union_left
    intro t _ ht1
    rw [cnt_eq_zero_of_not_mem tf1 t (by simpa using ht1)]
    simp
  have hs2 : (sumSquares tf2 : ℝ) = ∑ t ∈ K, (cnt tf2 t : ℝ) ^ 2 := by
    have e2 : ∑ t ∈ (mkeys tf2).toFinset, (cnt tf2 t : ℝ) * (cnt tf2 t : ℝ) =
        ∑ t ∈ (mkeys tf2).toFinset, (cnt tf2 t : ℝ) ^ 2 :=
      Finset.sum_congr rfl (fun t _ => by ring)
    rw [sumSquares_eq_sum tf2 h2, e2]
    apply Finset.sum_subset Finset.subset_union_right
    intro t _ ht2
    rw [cnt_eq_zero_of_not_mem tf2 t (by simpa using ht2)]
    simp
  rw [hdot, hs1, hs2]
  exact Real.sum_mul_le_sqrt_mul_sqrt K _ _

theorem cosineSimilarity_nonneg (tf1 tf2 : List (Tok × Nat)) :
    0 ≤ cosineSimilarity tf1 tf2 := by
  rw [cosineSimilarity]
  split_ifs with h1 h2
  · exact le_refl 0
  · exact le_refl 0
  · positivity

theorem cosineSimilarity_le_one (tf1 tf2 : List (Tok × Nat))
    (h1 : (mkeys tf1).Nodup) (h2 : (mkeys tf2).Nodup) :
    cosineSimilarity tf1 tf2 ≤ 1 := by
  rw [cosineSimilarity]
  split_ifs with g1 g2
  · exact zero_le_one
  · exact zero_le_one
  · push_neg at g2
    have hm1 : 0 < Real.sqrt (sumSquares tf1) :=
      lt_of_le_of_ne (Real.sqrt_nonneg _) (Ne.symm g2.1)
    have hm2 : 0 < Real.sqrt (sumSquares tf2) :=
      lt_of_le_of_ne (Real.sqrt_nonneg _) (Ne.symm g2.2)
    rw [div_le_one (mul_pos hm1 hm2)]
    exact dotProduct_le_sqrt tf1 tf2 h1 h2

theorem dotProduct_self (tf : List (Tok × Nat)) (h : (mkeys tf).Nodup) :
    dotProduct tf tf = sumSquares tf := by
  rw [dotProduct, sumSquares]
  congr 1
  apply map_congr_left
  intro p hp
  rw [cnt_of_mem tf h p hp]

theorem sumSquares_pos (tf : List (Tok × Nat)) (hne : tf ≠ [])
    (hpos : ∀ p ∈ tf, 0 < p.2) : 0 < sumSquares tf := by
  match tf, hne with
  | p :: ps, _ =>
    have hp := hpos p (mem_cons_self p ps)
    rw [sumSquares, map_cons, sum_cons]
    exact Nat.lt_of_lt_of_le (Nat.mul_pos hp hp) (Nat.le_add_right _ _)

theorem cosineSimilarity_self_eq_one (tf : List (Tok × Nat)) (hne : tf ≠ [])
    (hpos : ∀ p ∈ tf, 0 < p.2) (h : (mkeys tf).Nodup) :
    cosineSimilarity tf tf = 1 := by
  have hS : 0 < sumSquares tf := sumSquares_pos tf hne hpos
  have hsq : Real.sqrt (sumSquares tf) ≠ 0 := by
    rw [Real.sqrt_ne_zero']
    exact_mod_cast hS
  rw [cosineSimilarity, if_neg (by simp [length_eq_zero, hne]),
    if_neg (by simp [hsq]), dotProduct_self tf h,
    Real.mul_self_sqrt (by positivity)]
  exact div_self (by exact_mod_cast hS.ne')

theorem dotProduct_comm (tf1 tf2 : List (Tok × Nat))
    (h1 : (mkeys tf1).Nodup) (h2 : (mkeys tf2).Nodup) :
    dotProduct tf1 tf2 = dotProduct tf2 tf1 := by
  set K := (mkeys tf1).toFinset ∪ (mkeys tf2).toFinset with hK
  have hA : dotProduct tf1 tf2 = ∑ t ∈ K, cnt tf1 t * cnt tf2 t := by
    have he := @dotProduct_eq_sum ℕ _ tf1 tf2 h1
    simp only [Nat.cast_id] at he
    rw [he]
    apply Finset.sum_subset Finset.subset_union_left
    intro t _ ht1
    rw [cnt_eq_zero_of_not_mem tf1 t (by simpa using ht1)]
    simp
  have hB : dotProduct tf2 tf1 = ∑ t ∈ K, cnt tf2 t * cnt tf1 t := by
    have he := @dotProduct_eq_sum ℕ _ tf2 tf1 h2
    simp only [Nat.cast_id] at he
    rw [he]
    apply Finset.sum_subset Finset.subset_union_right
    intro t _ ht2
    rw [cnt_eq_zero_of_not_mem tf2 t (by simpa using ht2)]
    simp
  rw [hA, hB]
  exact Finset.sum_congr rfl (fun t _ => Nat.mul_comm _ _)

theorem cosineSimilarity_comm (tf1 tf2 : List (Tok × Nat))
    (h1 : (mkeys tf1).Nodup) (h2 : (mkeys tf2).Nodup) :
    cosineSimilarity tf1 tf2 = cosineSimilarity tf2 tf1 := by
  rw [cosineSimilarity, cosineSimilarity]
  by_cases hl : tf1.length = 0 ∨ tf2.length = 0
  · rw [if_pos hl, if_pos (Or.symm hl)]
  · rw [if_neg hl, if_neg (fun h => hl (Or.symm h))]
    by_cases hm : Real.sqrt (sumSquares tf1) = 0 ∨ Real.sqrt (sumSquares tf2) = 0
    · rw [if_pos hm, if_pos (Or.symm hm)]
    · rw [if_neg hm, if_neg (fun h => hm (Or.symm h))]
      rw [dotProduct_comm tf1 tf2 h1 h2, mul_comm]

theorem cosineSimilarity_disjoint (tf1 tf2 : List (Tok × Nat))
    (h : ∀ t ∈ mkeys tf1, t ∉ mkeys tf2) :
    cosineSimilarity tf1 tf2 = 0 := by
  have hdot : dotProduct tf1 tf2 = 0 := by
    rw [dotProduct]
    apply List.sum_eq_zero
    intro x hx
    obtain ⟨p, hp, rfl⟩ := mem_map.mp hx
    have hmem : p.1 ∈ mkeys tf1 := mem_map_of_mem Prod.fst hp
    rw [cnt_eq_zero_of_not_mem tf2 p.1 (h p.1 hmem)]
    simp
  rw [cosineSimilarity]
  split_ifs
  · rfl
  · rfl
  · rw [hdot]
    simp

theorem cosineSimilarity_nil_left (tf : List (Tok × Nat)) :
    cosineSimilarity [] tf = 0 := by
  rw [cosineSimilarity]
  simp

theorem cosineSimilarity_nil_right (tf : List (Tok × Nat)) :
    cosineSimilarity tf [] = 0 := by
  rw [cosineSimilarity]
  simp

theorem mem_bruteForce_iff (issues : List LinearIssue) (threshold : ℝ) (p : SimilarityPair) :
    p ∈ bruteForceComparison issues threshold ↔
      ∃ i j, i < j ∧ j < issues.length ∧ threshold ≤ simAt issues i j ∧
        p = pairAt issues i j := by
  rw [bruteForceComparison]
  simp only [mem_flatMap, mem_range, mem_filterMap, List.mem_range',
    Option.ite_none_right_eq_some, Option.some.injEq]
  constructor
  · rintro ⟨i, hi, j, ⟨⟨k, hk, rfl⟩, hs, rfl⟩⟩
    exact ⟨i, i + 1 + 1 * k, by omega, by omega, hs, rfl⟩
  · rintro ⟨i, j, hij, hj, hs, rfl⟩
    refine ⟨i, by omega, j, ⟨⟨j - (i + 1), by omega, by omega⟩, hs, rfl⟩⟩

theorem mem_idxGet_addToIndex (idx : List (Tok × List Nat)) (t t' : Tok) (i j : Nat) :
    j ∈ idxGet (addToIndex idx t i) t' ↔ j ∈ idxGet idx t' ∨ (t' = t ∧ j = i) := by
  rw [addToIndex]
  by_cases hs : (mget idx t).isSome
  · rw [if_pos hs, idxGet,
      mget_map_modify idx t t' (fun S => if i ∈ S then S else S ++ [i])]
    by_cases ht : t' = t
    · subst ht
      obtain ⟨S, hS⟩ := Option.isSome_iff_exists.mp hs
      rw [if_pos rfl, hS, idxGet, hS]
      simp only [Option.map_some', Option.getD_some]
      by_cases hiS : i ∈ S
      · rw [if_pos hiS]
        constructor
        · exact Or.inl
        · rintro (h | ⟨-, rfl⟩)
          · exact h
          · exact hiS
      · rw [if_neg hiS]
        simp [mem_append]
    · rw [if_neg ht, idxGet]
      simp [ht]
  · have hnone : mget idx t = none := Option.not_isSome_iff_eq_none.mp hs
    rw [if_neg hs, idxGet, mget_append]
    by_cases ht : t' = t
    · subst ht
      rw [hnone]
      simp [idxGet, hnone, mget]
    · by_cases hs' : (mget idx t').isSome
      · rw [if_pos hs', idxGet]
        simp [ht]
      · have hnone' : mget idx t' = none := Option.not_isSome_iff_eq_none.mp hs'
        rw [if_neg hs', idxGet, hnone']
        simp [mget, Ne.symm ht, ht]

theorem mem_idxGet_foldl_inner (toks : List Tok) (idx : List (Tok × List Nat)) (i j : Nat)
    (t' : Tok) :
    j ∈ idxGet (toks.foldl (fun idx t => addToIndex idx t i) idx) t' ↔
      j ∈ idxGet idx t' ∨ (t' ∈ toks ∧ j = i) := by
  induction toks generalizing idx with
  | nil => simp
  | cons t toks ih =>
    rw [foldl_cons, ih, mem_idxGet_addToIndex]
    simp only [mem_cons]
    tauto

theorem mem_idxGet_foldl_outer (es : List (Nat × List Tok)) (idx : List (Tok × List Nat))
    (t : Tok) (j : Nat) :
    j ∈ idxGet
        (es.foldl (fun idx it => it.2.foldl (fun idx t => addToIndex idx t it.1) idx) idx) t ↔
      j ∈ idxGet idx t ∨ ∃ e ∈ es, t ∈ e.2 ∧ j = e.1 := by
  induction es generalizing idx with
  | nil => simp
  | cons e es ih =>
    rw [foldl_cons, ih, mem_idxGet_foldl_inner]
    simp only [mem_cons]
    constructor
    · rintro ((h | ⟨hte, rfl⟩) | ⟨f, hf, htf, rfl⟩)
      · exact Or.inl h
      · exact Or.inr ⟨e, Or.inl rfl, hte, rfl⟩
      · exact Or.inr ⟨f, Or.inr hf, htf, rfl⟩
    · rintro (h | ⟨f, rfl | hf, htf, rfl⟩)
      · exact Or.inl (Or.inl h)
      · exact Or.inl (Or.inr ⟨htf, rfl⟩)
      · exact Or.inr ⟨f, hf, htf, rfl⟩

theorem mem_idxGet_buildTokenIndex (sigs : List (List Tok)) (t : Tok) (j : Nat) :
    j ∈ idxGet (buildTokenIndex sigs) t ↔ j < sigs.length ∧ t ∈ sigs.getD j [] := by
  rw [buildTokenIndex, mem_idxGet_foldl_outer]
  simp only [idxGet, mget, Option.getD_none, not_mem_nil, false_or]
  constructor
  · rintro ⟨e, he, hte, rfl⟩
    have := List.mk_mem_enum_iff_getElem?.mp (by simpa using he)
    have hlt : e.1 < sigs.length := by
      by_contra hge
      rw [List.getElem?_eq_none (by omega)] at this
      exact Option.noConfusion this
    refine ⟨hlt, ?_⟩
    rw [List.getD_eq_getElem sigs [] hlt]
    rw [List.getElem?_eq_getElem hlt] at this
    rw [show sigs[e.1] = e.2 from Option.some.inj this]
    exact hte
  · rintro ⟨hj, ht⟩
    refine ⟨(j, sigs.getD j []), ?_, ht, rfl⟩
    have : sigs[j]? = some (sigs.getD j []) := by
      rw [List.getElem?_eq_getElem hj, List.getD_eq_getElem sigs [] hj]
    exact List.mk_mem_enum_iff_getElem?.mpr this

theorem foldl_bump_guard (l : List Nat) (cand : List (Nat × Nat)) (i : Nat) :
    l.foldl (fun cand j => if i < j then bump cand j else cand) cand =
      (l.filter (fun j => decide (i < j))).foldl bump cand := by
  induction l generalizing cand with
  | nil => rfl
  | cons j l ih =>
    rw [foldl_cons, filter_cons]
    by_cases hj : i < j
    · simp only [hj, decide_True, if_true, foldl_cons]
      exact ih _
    · simp only [hj, decide_False, if_false, Bool.false_eq_true]
      exact ih _

theorem tallyFor_eq (idx : List (Tok × List Nat)) (sig : List Tok) (i : Nat) :
    tallyFor idx sig i = (tallyStream idx sig i).foldl bump [] := by
  rw [tallyFor, tallyStream]
  suffices h : ∀ (m : List (Nat × Nat)),
      sig.foldl (fun cand t =>
        (idxGet idx t).foldl (fun cand j => if i < j then bump cand j else cand) cand) m =
      (sig.flatMap (fun t => (idxGet idx t).filter (fun j => decide (i < j)))).foldl bump m from
    h []
  intro m
  induction sig generalizing m with
  | nil => rfl
  | cons t sig ih =>
    rw [foldl_cons, flatMap_cons, foldl_append, foldl_bump_guard]
    exact ih _

theorem nodup_mkeys_tallyFor (idx : List (Tok × List Nat)) (sig : List Tok) (i : Nat) :
    (mkeys (tallyFor idx sig i)).Nodup := by
  rw [tallyFor_eq]
  exact nodup_mkeys_foldl _ [] (by simp [mkeys])

theorem mem_tallyFor (idx : List (Tok × List Nat)) (sig : List Tok) (i j c : Nat) :
    (j, c) ∈ tallyFor idx sig i ↔
      j ∈ tallyStream idx sig i ∧ c = occCount j (tallyStream idx sig i) := by
  rw [tallyFor_eq, mem_iff_mget _ (nodup_mkeys_foldl _ [] (by simp [mkeys])),
    mget_foldl_bump]
  by_cases hmem : j ∈ tallyStream idx sig i
  · simp [hmem, mget, eq_comm]
  · simp [hmem, mget]

theorem mem_tallyStream (idx : List (Tok × List Nat)) (sig : List Tok) (i j : Nat) :
    j ∈ tallyStream idx sig i ↔ i < j ∧ ∃ t ∈ sig, j ∈ idxGet idx t := by
  rw [tallyStream]
  simp only [mem_flatMap, mem_filter, decide_eq_true_eq]
  tauto

theorem emitFor_cons (issues : List LinearIssue) (threshold : ℝ) (i : Nat)
    (jc : Nat × Nat) (rest : List (Nat × Nat)) (acc : List (Nat × Nat) × List SimilarityPair) :
    emitFor issues threshold i (jc :: rest) acc =
      emitFor issues threshold i rest
        (if 2 ≤ jc.2 then
          if (i, jc.1) ∈ acc.1 then acc
          else
            ((i, jc.1) :: acc.1,
              if threshold ≤ calculateIssueSimilarity (issues.getD i default)
                  (issues.getD jc.1 default) then
                acc.2 ++ [⟨issues.getD i default, issues.getD jc.1 default,
                  calculateIssueSimilarity (issues.getD i default) (issues.getD jc.1 default)⟩]
              else acc.2)
        else acc) := rfl

theorem emitFor_spec (issues : List LinearIssue) (threshold : ℝ) (i : Nat)
    (cands : List (Nat × Nat)) (acc : List (Nat × Nat) × List SimilarityPair)
    (hnd : (mkeys cands).Nodup)
    (hfresh : ∀ jc ∈ cands, (i, jc.1) ∉ acc.1) :
    (emitFor issues threshold i cands acc).2 =
      acc.2 ++ cands.filterMap (emitEntry issues threshold i) ∧
    ∀ x, x ∈ (emitFor issues threshold i cands acc).1 ↔
      x ∈ acc.1 ∨ ∃ jc ∈ cands, 2 ≤ jc.2 ∧ x = (i, jc.1) := by
  induction cands generalizing acc with
  | nil => simp [emitFor]
  | cons jc rest ih =>
    have hnd' : (mkeys rest).Nodup := by
      rw [show mkeys (jc :: rest) = jc.1 :: mkeys rest from rfl, nodup_cons] at hnd
      exact hnd.2
    have hjr : jc.1 ∉ mkeys rest := by
      rw [show mkeys (jc :: rest) = jc.1 :: mkeys rest from rfl, nodup_cons] at hnd
      exact hnd.1
    rw [emitFor_cons]
    by_cases hgate : 2 ≤ jc.2
    · have hseen : (i, jc.1) ∉ acc.1 := hfresh jc (mem_cons_self jc rest)
      rw [if_pos hgate, if_neg hseen]
      have hfresh' : ∀ kc ∈ rest,
          (i, kc.1) ∉ ((i, jc.1) :: acc.1,
            if threshold ≤ calculateIssueSimilarity (issues.getD i default)
                (issues.getD jc.1 default) then
              acc.2 ++ [⟨issues.getD i default, issues.getD jc.1 default,
                calculateIssueSimilarity (issues.getD i default) (issues.getD jc.1 default)⟩]
            else acc.2).1 := by
        intro kc hkc
        simp only [mem_cons]
        rintro (heq | hmem)
        · have hk : kc.1 = jc.1 := congrArg Prod.snd heq
          exact hjr (hk ▸ mem_map_of_mem Prod.fst hkc)
        · exact hfresh kc (mem_cons_of_mem _ hkc) hmem
      obtain ⟨hpairs, hseen'⟩ := ih _ hnd' hfresh'
      constructor
      · rw [hpairs]
        by_cases hsim : threshold ≤ calculateIssueSimilarity (issues.getD i default)
            (issues.getD jc.1 default)
        · rw [if_pos hsim, filterMap_cons,
            show emitEntry issues threshold i jc = some (pairAt issues i jc.1) from by
              rw [emitEntry, if_pos ⟨hgate, hsim⟩]]
          simp [pairAt, simAt, calculateIssueSimilarity, append_assoc]
        · rw [if_neg hsim, filterMap_cons,
            show emitEntry issues threshold i jc = none from by
              rw [emitEntry, if_neg (fun hc => hsim hc.2)]]
      · intro x
        rw [hseen' x]
        simp only [mem_cons]
        constructor
        · rintro ((rfl | hmem) | ⟨kc, hkc, hk2, rfl⟩)
          · exact Or.inr ⟨jc, Or.inl rfl, hgate, rfl⟩
          · exact Or.inl hmem
          · exact Or.inr ⟨kc, Or.inr hkc, hk2, rfl⟩
        · rintro (hmem | ⟨kc, rfl | hkc', hk2, rfl⟩)
          · exact Or.inl (Or.inr hmem)
          · exact Or.inl (Or.inl rfl)
          · exact Or.inr ⟨kc, hkc', hk2, rfl⟩
    · rw [if_neg hgate]
      obtain ⟨hpairs, hseen'⟩ :=
        ih acc hnd' (fun kc hkc => hfresh kc (mem_cons_of_mem _ hkc))
      constructor
      · rw [hpairs, filterMap_cons,
          show emitEntry issues threshold i jc = none from by
            rw [emitEntry, if_neg (fun hc => hgate hc.1)]]
      · intro x
        rw [hseen' x]
        constructor
        · rintro (h | ⟨kc, hkc, hk2, rfl⟩)
          · exact Or.inl h
          · exact Or.inr ⟨kc, mem_cons_of_mem _ hkc, hk2, rfl⟩
        · rintro (h | ⟨kc, hkc, hk2, rfl⟩)
          · exact Or.inl h
          · rcases mem_cons.mp hkc with rfl | hkc'
            · exact absurd hk2 hgate
            · exact Or.inr ⟨kc, hkc', hk2, rfl⟩

theorem bucketed_foldl_spec (issues : List LinearIssue) (threshold : ℝ)
    (is : List Nat) (acc : List (Nat × Nat) × List SimilarityPair)
    (hnd : is.Nodup)
    (hfresh : ∀ i ∈ is, ∀ x ∈ acc.1, x.1 ≠ i) :
    (is.foldl (fun acc i => emitFor issues threshold i (candsAt issues i) acc) acc).2 =
      acc.2 ++
        is.flatMap (fun i => (candsAt issues i).filterMap (emitEntry issues threshold i)) ∧
    ∀ x,
      x ∈ (is.foldl (fun acc i => emitFor issues threshold i (candsAt issues i) acc) acc).1 ↔
        x ∈ acc.1 ∨ ∃ i ∈ is, ∃ jc ∈ candsAt issues i, 2 ≤ jc.2 ∧ x = (i, jc.1) := by
  induction is generalizing acc with
  | nil => simp
  | cons i is ih =>
    rw [foldl_cons]
    have hndi : is.Nodup := (nodup_cons.mp hnd).2
    have hinotin : i ∉ is := (nodup_cons.mp hnd).1
    obtain ⟨hpairs, hseen⟩ := emitFor_spec issues threshold i (candsAt issues i) acc
      (nodup_mkeys_tallyFor _ _ _)
      (fun jc _ hmem => hfresh i (mem_cons_self i is) _ hmem rfl)
    have hfresh' : ∀ i' ∈ is,
        ∀ x ∈ (emitFor issues threshold i (candsAt issues i) acc).1, x.1 ≠ i' := by
      intro i' hi' x hx
      rcases (hseen x).mp hx with hmem | ⟨jc, _, _, rfl⟩
      · exact hfresh i' (mem_cons_of_mem _ hi') x hmem
      · intro hEq
        exact hinotin (by simpa [← hEq] using hi')
    obtain ⟨hpairs', hseen'⟩ := ih _ hndi hfresh'
    constructor
    · rw [hpairs', hpairs, flatMap_cons, append_assoc]
    · intro x
      rw [hseen' x, hseen x]
      constructor
      · rintro ((h | ⟨jc, hjc, h2, rfl⟩) | ⟨i', hi', jc, hjc, h2, rfl⟩)
        · exact Or.inl h
        · exact Or.inr ⟨i, mem_cons_self i is, jc, hjc, h2, rfl⟩
        · exact Or.inr ⟨i', mem_cons_of_mem _ hi', jc, hjc, h2, rfl⟩
      · rintro (h | ⟨i', hi', jc, hjc, h2, rfl⟩)
        · exact Or.inl (Or.inl h)
        · rcases mem_cons.mp hi' with rfl | hi''
          · exact Or.inl (Or.inr ⟨jc, hjc, h2, rfl⟩)
          · exact Or.inr ⟨i', hi'', jc, hjc, h2, rfl⟩

theorem bucketedComparison_eq (issues : List LinearIssue) (threshold : ℝ) :
    bucketedComparison issues threshold =
      (List.range issues.length).flatMap
        (fun i => (candsAt issues i).filterMap (emitEntry issues threshold i)) := by
  rw [bucketedComparison]
  have h := (bucketed_foldl_spec issues threshold (List.range issues.length) ([], [])
    (nodup_range _) (by simp)).1
  simpa [candsAt, issueSigs] using h

theorem mem_bucketed_iff (issues : List LinearIssue) (threshold : ℝ) (p : SimilarityPair) :
    p ∈ bucketedComparison issues threshold ↔
      ∃ i jc, i < issues.length ∧ jc ∈ candsAt issues i ∧ 2 ≤ jc.2 ∧
        threshold ≤ simAt issues i jc.1 ∧ p = pairAt issues i jc.1 := by
  rw [bucketedComparison_eq]
  simp only [mem_flatMap, mem_range, mem_filterMap, emitEntry,
    Option.ite_none_right_eq_some, Option.some.injEq]
  constructor
  · rintro ⟨i, hi, jc, hjc, ⟨h2, hsim⟩, rfl⟩
    exact ⟨i, jc, hi, hjc, h2, hsim, rfl⟩
  · rintro ⟨i, jc, hi, hjc, h2, hsim, rfl⟩
    exact ⟨i, hi, jc, hjc, ⟨h2, hsim⟩, rfl⟩

theorem candsAt_lt (issues : List LinearIssue) (i : Nat) (jc : Nat × Nat)
    (h : jc ∈ candsAt issues i) : i < jc.1 ∧ jc.1 < issues.length := by
  rw [candsAt] at h
  have h' := (mem_tallyFor _ _ _ jc.1 jc.2).mp h
  have hstream := h'.1
  rw [mem_tallyStream] at hstream
  obtain ⟨hij, t, _, hidx⟩ := hstream
  rw [mem_idxGet_buildTokenIndex] at hidx
  refine ⟨hij, ?_⟩
  have := hidx.1
  rwa [issueSigs, length_map] at this

theorem bucketed_subset_brute (issues : List LinearIssue) (threshold : ℝ)
    (p : SimilarityPair) (hp : p ∈ bucketedComparison issues threshold) :
    p ∈ bruteForceComparison issues threshold := by
  rw [mem_bucketed_iff] at hp
  obtain ⟨i, jc, _, hjc, _, hsim, rfl⟩ := hp
  obtain ⟨hij, hjn⟩ := candsAt_lt issues i jc hjc
  exact (mem_bruteForce_iff issues threshold _).mpr ⟨i, jc.1, hij, hjn, hsim, rfl⟩

/-! ### Recovery of identical records by the bucketed strategy -/

theorem length_getTopTokens (text : String) (n : Nat) :
    (getTopTokens text n).length = min n (termFrequency (tokenize text)).length := by
  rw [getTopTokens, length_map, length_take, length_mergeSort]

theorem mem_getTopTokens (text : String) (n : Nat) (t : Tok)
    (h : t ∈ getTopTokens text n) : t ∈ tokenize text := by
  rw [getTopTokens] at h
  obtain ⟨p, hp, rfl⟩ := mem_map.mp h
  have hsorted : p ∈ (termFrequency (tokenize text)).mergeSort
      (fun a b => decide (b.2 ≤ a.2)) := mem_of_mem_take hp
  have htf : p ∈ termFrequency (tokenize text) := by
    have hperm := mergeSort_perm (termFrequency (tokenize text)) (fun a b => decide (b.2 ≤ a.2))
    exact hperm.mem_iff.mp hsorted
  have := mem_map_of_mem Prod.fst htf
  exact (mem_mkeys_termFrequency (tokenize text) p.1).mp this

theorem issueSigs_getD (issues : List LinearIssue) (i : Nat) (hi : i < issues.length) :
    (issueSigs issues).getD i [] =
      getTopTokens (comparableText (issues.getD i default)) 10 := by
  rw [issueSigs, List.getD_eq_getElem _ _ (by simpa using hi), getElem_map,
    List.getD_eq_getElem _ _ hi]

theorem occCount_flatMap {aa : Type} (k : Nat) (l : List aa) (f : aa → List Nat) :
    occCount k (l.flatMap f) = (l.map (fun t => occCount k (f t))).sum := by
  induction l with
  | nil => rfl
  | cons t l ih =>
    rw [flatMap_cons, occCount, countP_append, map_cons, sum_cons]
    rw [show (l.flatMap f).countP (fun t => decide (t = k)) = occCount k (l.flatMap f) from rfl,
      ih]
    rfl

theorem length_le_sum_map {aa : Type} (l : List aa) (g : aa → Nat)
    (h : ∀ x ∈ l, 1 ≤ g x) : l.length ≤ (l.map g).sum := by
  induction l with
  | nil => simp
  | cons x l ih =>
    rw [length_cons, map_cons, sum_cons]
    have h1 := h x (mem_cons_self x l)
    have h2 := ih (fun y hy => h y (mem_cons_of_mem _ hy))
    omega

theorem identical_pair_mem_bucketed (issues : List LinearIssue) (threshold : ℝ)
    (i j : Nat) (hij : i < j) (hj : j < issues.length)
    (hct : comparableText (issues.getD i default) = comparableText (issues.getD j default))
    (hcard : 2 ≤ (termFrequency (tokenize (comparableText (issues.getD i default)))).length)
    (hthr : threshold ≤ 1) :
    pairAt issues i j ∈ bucketedComparison issues threshold ∧ simAt issues i j = 1 := by
  have hi : i < issues.length := lt_trans hij hj
  have hn : issues.length = (issueSigs issues).length := by rw [issueSigs, length_map]
  set sig := getTopTokens (comparableText (issues.getD i default)) 10 with hsig
  have hsi : (issueSigs issues).getD i [] = sig := issueSigs_getD issues i hi
  have hsj : (issueSigs issues).getD j [] = sig := by
    rw [issueSigs_getD issues j hj, ← hct]
  have hsiglen : 2 ≤ sig.length := by
    rw [hsig, length_getTopTokens]
    omega
  -- the similarity of the identical pair is exactly 1
  have htfne : termFrequency (tokenize (comparableText (issues.getD i default))) ≠ [] := by
    intro hnil
    rw [hnil] at hcard
    simp at hcard
  have hsim : simAt issues i j = 1 := by
    rw [simAt, calculateIssueSimilarity, ← hct]
    exact cosineSimilarity_self_eq_one _ htfne
      (fun p hp => termFrequency_pos _ p.1 p.2 (by simpa using hp))
      (nodup_mkeys_termFrequency _)
  -- every signature token of i indexes j as well
  have hidx : ∀ t ∈ sig, j ∈ idxGet (buildTokenIndex (issueSigs issues)) t := by
    intro t ht
    rw [mem_idxGet_buildTokenIndex]
    exact ⟨by omega, by rw [hsj]; exact ht⟩
  -- hence the tally of i counts j at least `sig.length ≥ 2` times
  have hjstream : j ∈ tallyStream (buildTokenIndex (issueSigs issues)) sig i := by
    rw [mem_tallyStream]
    obtain ⟨t, ht⟩ : ∃ t, t ∈ sig := by
      match hs : sig, hsiglen with
      | t :: _, _ => exact ⟨t, mem_cons_self ..⟩
    exact ⟨hij, t, ht, hidx t ht⟩
  have hcount : 2 ≤ occCount j (tallyStream (buildTokenIndex (issueSigs issues)) sig i) := by
    rw [tallyStream, occCount_flatMap]
    refine le_trans hsiglen (length_le_sum_map _ _ ?_)
    intro t ht
    have : j ∈ ((idxGet (buildTokenIndex (issueSigs issues)) t).filter
        (fun j' => decide (i < j'))) := by
      rw [mem_filter]
      exact ⟨hidx t ht, by simpa using hij⟩
    rw [Nat.succ_le_iff, occCount, countP_pos_iff]
    exact ⟨j, this, by simp⟩
  have hjc : (j, occCount j (tallyStream (buildTokenIndex (issueSigs issues)) sig i)) ∈
      candsAt issues i := by
    rw [candsAt, hsi, mem_tallyFor]
    exact ⟨hjstream, rfl⟩
  refine ⟨(mem_bucketed_iff issues threshold _).mpr
    ⟨i, (j, occCount j (tallyStream (buildTokenIndex (issueSigs issues)) sig i)), hi, hjc,
      hcount, ?_, rfl⟩, hsim⟩
  rw [hsim]
  exact hthr

theorem sameUnordered_symm {p q : SimilarityPair} (h : sameUnordered p q) :
    sameUnordered q p := by
  rcases h with ⟨h1, h2⟩ | ⟨h1, h2⟩
  · exact Or.inl ⟨h1.symm, h2.symm⟩
  · exact Or.inr ⟨h2.symm, h1.symm⟩

theorem mem_range'_bounds {j s n : Nat} (h : j ∈ List.range' s n) : s ≤ j ∧ j < s + n := by
  rw [List.mem_range'] at h
  obtain ⟨k, hk, rfl⟩ := h
  omega

theorem idInj (issues : List LinearIssue)
    (hids : (issues.map (fun iss => iss.id)).Nodup) (a b : Nat)
    (ha : a < issues.length) (hb : b < issues.length)
    (heq : (issues.getD a default).id = (issues.getD b default).id) : a = b := by
  have hla : a < (issues.map (fun iss => iss.id)).length := by simpa using ha
  have hlb : b < (issues.map (fun iss => iss.id)).length := by simpa using hb
  have hgl : (issues.map (fun iss => iss.id))[a] = (issues.map (fun iss => iss.id))[b] := by
    rw [getElem_map, getElem_map, ← List.getD_eq_getElem issues default ha,
      ← List.getD_eq_getElem issues default hb]
    exact heq
  exact (List.Nodup.getElem_inj_iff hids).mp hgl

theorem pairAt_not_same (issues : List LinearIssue)
    (hids : (issues.map (fun iss => iss.id)).Nodup) {i j i' j' : Nat}
    (hij : i < j) (hj : j < issues.length) (hij' : i' < j') (hj' : j' < issues.length)
    (hne : ¬(i = i' ∧ j = j')) :
    ¬sameUnordered (pairAt issues i j) (pairAt issues i' j') := by
  rintro (⟨h1, h2⟩ | ⟨h1, h2⟩)
  · exact hne ⟨idInj issues hids i i' (by omega) (by omega) h1,
      idInj issues hids j j' hj hj' h2⟩
  · have e1 : i = j' := idInj issues hids i j' (by omega) hj' h1
    have e2 : j = i' := idInj issues hids j i' hj (by omega) h2
    omega

theorem pairAt_id_ne (issues : List LinearIssue)
    (hids : (issues.map (fun iss => iss.id)).Nodup) {i j : Nat}
    (hij : i < j) (hj : j < issues.length) :
    (pairAt issues i j).issueA.id ≠ (pairAt issues i j).issueB.id := by
  intro h
  have := idInj issues hids i j (by omega) hj h
  omega

theorem pairwise_bruteForce (issues : List LinearIssue) (threshold : ℝ)
    (hids : (issues.map (fun iss => iss.id)).Nodup) :
    Pairwise (fun p q => ¬sameUnordered p q) (bruteForceComparison issues threshold) := by
  rw [bruteForceComparison, pairwise_flatMap]
  constructor
  · intro i hi
    have hilen : i < issues.length := mem_range.mp hi
    rw [pairwise_filterMap]
    have h := pairwise_lt_range' (i + 1) (issues.length - (i + 1)) 1
    rw [List.Pairwise.and_mem] at h
    apply h.imp
    rintro j1 j2 ⟨hm1, hm2, hlt⟩ p hp q hq
    rw [Option.mem_def, Option.ite_none_right_eq_some, Option.some.injEq] at hp hq
    obtain ⟨b1, hb1⟩ := mem_range'_bounds hm1
    obtain ⟨b2, hb2⟩ := mem_range'_bounds hm2
    rw [← hp.2, ← hq.2]
    exact pairAt_not_same issues hids (by omega) (by omega) (by omega) (by omega)
      (fun hc => by omega)
  · have h := pairwise_lt_range issues.length
    rw [List.Pairwise.and_mem] at h
    apply h.imp
    rintro i1 i2 ⟨hm1, hm2, hlt⟩ p hp q hq
    have hi1 : i1 < issues.length := mem_range.mp hm1
    have hi2 : i2 < issues.length := mem_range.mp hm2
    rw [mem_filterMap] at hp hq
    obtain ⟨j1, hj1, hpe⟩ := hp
    obtain ⟨j2, hj2, hqe⟩ := hq
    rw [Option.ite_none_right_eq_some, Option.some.injEq] at hpe hqe
    obtain ⟨c1, hc1⟩ := mem_range'_bounds hj1
    obtain ⟨c2, hc2⟩ := mem_range'_bounds hj2
    rw [← hpe.2, ← hqe.2]
    exact pairAt_not_same issues hids (by omega) (by omega) (by omega) (by omega)
      (fun hc => by omega)

theorem pairwise_bucketed (issues : List LinearIssue) (threshold : ℝ)
    (hids : (issues.map (fun iss => iss.id)).Nodup) :
    Pairwise (fun p q => ¬sameUnordered p q) (bucketedComparison issues threshold) := by
  rw [bucketedComparison_eq, pairwise_flatMap]
  constructor
  · intro i _
    rw [pairwise_filterMap]
    have hnd : Pairwise (fun a b : Nat × Nat => a.1 ≠ b.1) (candsAt issues i) :=
      pairwise_map.mp (nodup_mkeys_tallyFor (buildTokenIndex (issueSigs issues))
        ((issueSigs issues).getD i []) i)
    rw [List.Pairwise.and_mem] at hnd
    apply hnd.imp
    rintro jc1 jc2 ⟨hm1, hm2, hne⟩ p hp q hq
    rw [Option.mem_def, emitEntry, Option.ite_none_right_eq_some, Option.some.injEq] at hp hq
    obtain ⟨hb1, hb1'⟩ := candsAt_lt issues i jc1 hm1
    obtain ⟨hb2, hb2'⟩ := candsAt_lt issues i jc2 hm2
    rw [← hp.2, ← hq.2]
    exact pairAt_not_same issues hids hb1 hb1' hb2 hb2' (fun hc => hne hc.2)
  · have h := pairwise_lt_range issues.length
    rw [List.Pairwise.and_mem] at h
    apply h.imp
    rintro i1 i2 ⟨hm1, hm2, hlt⟩ p hp q hq
    rw [mem_filterMap] at hp hq
    obtain ⟨jc1, hjc1, hpe⟩ := hp
    obtain ⟨jc2, hjc2, hqe⟩ := hq
    rw [emitEntry, Option.ite_none_right_eq_some, Option.some.injEq] at hpe hqe
    obtain ⟨hb1, hb1'⟩ := candsAt_lt issues i1 jc1 hjc1
    obtain ⟨hb2, hb2'⟩ := candsAt_lt issues i2 jc2 hjc2
    rw [← hpe.2, ← hqe.2]
    exact pairAt_not_same issues hids hb1 hb1' hb2 hb2'
      (fun hc => absurd hc.1 (Nat.ne_of_lt hlt))

/-! ### The final sort -/

theorem descBy_trans {aa : Type} (f : aa → ℝ) :
    ∀ a b c : aa, (fun a b => decide (f b ≤ f a)) a b →
      (fun a b => decide (f b ≤ f a)) b c → (fun a b => decide (f b ≤ f a)) a c := by
  intro a b c h1 h2
  simp only [decide_eq_true_eq] at h1 h2 ⊢
  exact le_trans h2 h1

theorem descBy_total {aa : Type} (f : aa → ℝ) :
    ∀ a b : aa, ((fun a b => decide (f b ≤ f a)) a b ||
      (fun a b => decide (f b ≤ f a)) b a) := by
  intro a b
  simpa using le_total (f b) (f a)

theorem sorted_findConsolidationPairs (issues : List LinearIssue) (threshold : ℝ) :
    Pairwise (fun p q => q.similarity ≤ p.similarity)
      (findConsolidationPairs issues threshold) := by
  rw [findConsolidationPairs]
  have h := sorted_mergeSort
    (descBy_trans (fun p : SimilarityPair => p.similarity))
    (descBy_total (fun p : SimilarityPair => p.similarity))
    (if issues.length > 400 then bucketedComparison issues threshold
     else bruteForceComparison issues threshold)
  exact h.imp (fun hab => by simpa using hab)

theorem mem_findConsolidationPairs (issues : List LinearIssue) (threshold : ℝ)
    (p : SimilarityPair) :
    p ∈ findConsolidationPairs issues threshold ↔
      (if issues.length > 400 then p ∈ bucketedComparison issues threshold
       else p ∈ bruteForceComparison issues threshold) := by
  rw [findConsolidationPairs]
  by_cases h : issues.length > 400
  · rw [if_pos h, if_pos h, mem_mergeSort]
  · rw [if_neg h, if_neg h, mem_mergeSort]

theorem perm_findConsolidationPairs (issues : List LinearIssue) (threshold : ℝ) :
    (findConsolidationPairs issues threshold).Perm
      (if issues.length > 400 then bucketedComparison issues threshold
       else bruteForceComparison issues threshold) := by
  rw [findConsolidationPairs]
  exact mergeSort_perm _ _

theorem textSimilarity_nonneg (text1 text2 : String) : 0 ≤ textSimilarity text1 text2 := by
  rw [textSimilarity]
  exact cosineSimilarity_nonneg _ _

theorem textSimilarity_le_one (text1 text2 : String) : textSimilarity text1 text2 ≤ 1 := by
  rw [textSimilarity]
  exact cosineSimilarity_le_one _ _ (nodup_mkeys_termFrequency _) (nodup_mkeys_termFrequency _)

theorem compareSlackToLinear_nonneg (s t : String) (od : Option String) :
    0 ≤ compareSlackToLinear s t od := by
  rw [compareSlackToLinear.eq_def]
  exact textSimilarity_nonneg _ _

theorem compareSlackToLinear_le_one (s t : String) (od : Option String) :
    compareSlackToLinear s t od ≤ 1 := by
  rw [compareSlackToLinear.eq_def]
  exact textSimilarity_le_one _ _

theorem simAt_nonneg (issues : List LinearIssue) (i j : Nat) : 0 ≤ simAt issues i j := by
  rw [simAt, calculateIssueSimilarity]
  exact cosineSimilarity_nonneg _ _

/-! ### The claims -/

/-- C1: for every record list and threshold, each pair the bucketed
(approximate) strategy returns — score included — is also returned by the
brute-force (exact) strategy on the same records and threshold: no false
positives, only possible recall loss. -/
theorem claim_C1 (issues : List LinearIssue) (threshold : ℝ) :
    ∀ p ∈ bucketedComparison issues threshold, p ∈ bruteForceComparison issues threshold :=
  fun p hp => bucketed_subset_brute issues threshold p hp

theorem claim_C1_witness :
    pairAt [⟨"1", "alpha beta", none⟩, ⟨"1", "alpha beta", none⟩] 0 1 ∈
        bucketedComparison [⟨"1", "alpha beta", none⟩, ⟨"1", "alpha beta", none⟩] 0 ∧
      pairAt [⟨"1", "alpha beta", none⟩, ⟨"1", "alpha beta", none⟩] 0 1 ∈
        bruteForceComparison [⟨"1", "alpha beta", none⟩, ⟨"1", "alpha beta", none⟩] 0 := by
  have hmem := (identical_pair_mem_bucketed
    [⟨"1", "alpha beta", none⟩, ⟨"1", "alpha beta", none⟩] 0 0 1
    (by omega) (by decide) rfl (by decide) zero_le_one).1
  exact ⟨hmem, claim_C1 _ _ _ hmem⟩

/-- C5: `tokenize` coincides with the spec's reference pipeline (lowercase;
replace each character that is not a lowercase ASCII letter, digit, or
whitespace by one space; split on whitespace runs; drop tokens of length ≤ 1;
drop stopwords; keep source order), and empty input yields the empty
sequence rather than an error. -/
theorem claim_C5 : (∀ s : String, tokenize s = tokenizeSpec s) ∧ tokenize "" = [] :=
  ⟨tokenize_eq_tokenizeSpec, tokenize_empty⟩

/-- C7: cosine similarity is symmetric on well-formed term-frequency maps
(maps with distinct keys, as JavaScript `Map` objects always are). -/
theorem claim_C7 (tf1 tf2 : List (Tok × Nat)) (h1 : (mkeys tf1).Nodup)
    (h2 : (mkeys tf2).Nodup) : cosineSimilarity tf1 tf2 = cosineSimilarity tf2 tf1 :=
  cosineSimilarity_comm tf1 tf2 h1 h2

theorem claim_C7_witness :
    (mkeys ([(['a', 'b'], 1)] : List (Tok × Nat))).Nodup ∧
    (mkeys ([(['c'], 2), (['d', 'e'], 1)] : List (Tok × Nat))).Nodup ∧
    cosineSimilarity [(['a', 'b'], 1)] [(['c'], 2), (['d', 'e'], 1)] =
      cosineSimilarity [(['c'], 2), (['d', 'e'], 1)] [(['a', 'b'], 1)] :=
  ⟨by decide, by decide, claim_C7 _ _ (by decide) (by decide)⟩

/-- C8: `cosineSimilarity` never raises: an empty vector on either side gives
0, vectors with disjoint term sets give exactly 0, and a text with no
meaningful tokens degrades to similarity 0 rather than a fault. -/
theorem claim_C8 :
    (∀ tf : List (Tok × Nat), cosineSimilarity [] tf = 0 ∧ cosineSimilarity tf [] = 0) ∧
    (∀ tf1 tf2 : List (Tok × Nat),
      (∀ t ∈ mkeys tf1, t ∉ mkeys tf2) → cosineSimilarity tf1 tf2 = 0) ∧
    (∀ text1 text2 : String, tokenize text1 = [] → textSimilarity text1 text2 = 0) := by
  refine ⟨fun tf => ⟨cosineSimilarity_nil_left tf, cosineSimilarity_nil_right tf⟩,
    cosineSimilarity_disjoint, ?_⟩
  intro t1 t2 h
  rw [textSimilarity, h]
  exact cosineSimilarity_nil_left _

theorem claim_C8_witness :
    (∀ t ∈ mkeys ([(['a', 'b'], 1)] : List (Tok × Nat)),
      t ∉ mkeys ([(['c', 'd'], 1)] : List (Tok × Nat))) ∧
    cosineSimilarity [(['a', 'b'], 1)] [(['c', 'd'], 1)] = 0 ∧
    tokenize "!?" = [] ∧ textSimilarity "!?" "alpha" = 0 :=
  ⟨by decide, claim_C8.2.1 _ _ (by decide), by decide, claim_C8.2.2 "!?" "alpha" (by decide)⟩

/-- C10: tokenizing `a ++ " " ++ b` concatenates the token sequences of `a`
and `b`; in particular the pairwise finder's comparable text (always inserting
the separator space and appending `""` for an absent description) tokenizes
exactly like the ranked matcher's construction (which omits the separator when
the description is absent or empty), so both produce the same scores. -/
theorem claim_C10 :
    (∀ a b : String, tokenize (a ++ " " ++ b) = tokenize a ++ tokenize b) ∧
    (∀ (title : String) (od : Option String),
      tokenize (title ++ " " ++ od.getD "") =
        tokenize (match od with
          | some d => if d.isEmpty then title else title ++ " " ++ d
          | none => title)) ∧
    (∀ (slackText title : String) (od : Option String),
      compareSlackToLinear slackText title od =
        textSimilarity slackText (title ++ " " ++ od.getD "")) := by
  have htok : ∀ (title : String) (od : Option String),
      tokenize (title ++ " " ++ od.getD "") =
        tokenize (match od with
          | some d => if d.isEmpty then title else title ++ " " ++ d
          | none => title) := by
    intro title od
    match od with
    | none =>
      rw [Option.getD_none, tokenize_append_space, tokenize_empty, append_nil]
    | some d =>
      by_cases hd : d.isEmpty
      · have hd0 : d = "" := by
          cases d with
          | mk data =>
            rw [String.isEmpty_iff] at hd
            exact hd
        subst hd0
        simp only [Option.getD_some, if_pos hd]
        rw [tokenize_append_space, tokenize_empty, append_nil]
      · simp only [Option.getD_some, if_neg hd]
  refine ⟨tokenize_append_space, htok, ?_⟩
  intro slackText title od
  rw [compareSlackToLinear.eq_def]
  rw [textSimilarity, textSimilarity, htok title od]

/-- C4: `findSimilarIssues` returns exactly the candidates scoring at least
`minScore` (a permutation of that filtered list), every returned score lies in
[0, 1], the output is sorted non-increasingly by score, candidates with equal
scores keep their relative input order (stable ties), and `minScore = 0` keeps
every candidate, zero-score ones included. -/
theorem claim_C4 (slackText : String) (linearIssues : List TextRecord) (minScore : ℝ) :
    (findSimilarIssues slackText linearIssues minScore).Perm
      ((linearIssues.map (fun issue =>
        (issue, compareSlackToLinear slackText issue.title issue.description))).filter
        (fun r => decide (minScore ≤ r.2))) ∧
    (∀ r ∈ findSimilarIssues slackText linearIssues minScore, 0 ≤ r.2 ∧ r.2 ≤ 1) ∧
    Pairwise (fun a b => b.2 ≤ a.2) (findSimilarIssues slackText linearIssues minScore) ∧
    (∀ s : ℝ,
      (findSimilarIssues slackText linearIssues minScore).filter
          (fun r => decide (r.2 = s)) =
        ((linearIssues.map (fun issue =>
          (issue, compareSlackToLinear slackText issue.title issue.description))).filter
          (fun r => decide (minScore ≤ r.2))).filter (fun r => decide (r.2 = s))) ∧
    (minScore = 0 →
      (findSimilarIssues slackText linearIssues minScore).Perm
        (linearIssues.map (fun issue =>
          (issue, compareSlackToLinear slackText issue.title issue.description)))) := by
  have hout : findSimilarIssues slackText linearIssues minScore =
      ((linearIssues.map (fun issue =>
        (issue, compareSlackToLinear slackText issue.title issue.description))).filter
        (fun r => decide (minScore ≤ r.2))).mergeSort (fun a b => decide (b.2 ≤ a.2)) := rfl
  refine ⟨?_, ?_, ?_, ?_, ?_⟩
  · rw [hout]
    exact mergeSort_perm _ _
  · intro r hr
    rw [hout, mem_mergeSort] at hr
    obtain ⟨issue, _, rfl⟩ := mem_map.mp (mem_of_mem_filter hr)
    exact ⟨compareSlackToLinear_nonneg _ _ _, compareSlackToLinear_le_one _ _ _⟩
  · rw [hout]
    exact (sorted_mergeSort (descBy_trans (fun r : TextRecord × ℝ => r.2))
      (descBy_total (fun r : TextRecord × ℝ => r.2)) _).imp (fun hab => by simpa using hab)
  · intro s
    set kept := (linearIssues.map (fun issue =>
      (issue, compareSlackToLinear slackText issue.title issue.description))).filter
      (fun r => decide (minScore ≤ r.2)) with hkept
    set c := kept.filter (fun r => decide (r.2 = s)) with hc
    have hcmem : ∀ x ∈ c, x.2 = s := by
      intro x hx
      have := of_mem_filter hx
      simpa using this
    have hcpair : Pairwise (fun a b => decide (b.2 ≤ a.2) = true) c := by
      rw [pairwise_iff_forall_sublist]
      intro a b hab
      have ha := hcmem a (hab.subset (mem_cons_self a [b]))
      have hb := hcmem b (hab.subset (mem_cons_of_mem a (mem_cons_self b [])))
      simp [ha, hb]
    have hcsub : c <+ kept.mergeSort (fun a b => decide (b.2 ≤ a.2)) :=
      sublist_mergeSort (descBy_trans (fun r : TextRecord × ℝ => r.2))
        (descBy_total (fun r : TextRecord × ℝ => r.2)) hcpair (filter_sublist kept)
    have hceq : c.filter (fun r => decide (r.2 = s)) = c :=
      filter_eq_self.mpr (fun x hx => by simp [hcmem x hx])
    have hsub2 : c <+ (kept.mergeSort (fun a b => decide (b.2 ≤ a.2))).filter
        (fun r => decide (r.2 = s)) := by
      rw [← hceq]
      exact hcsub.filter _
    have hlen : c.length = ((kept.mergeSort (fun a b => decide (b.2 ≤ a.2))).filter
        (fun r => decide (r.2 = s))).length := by
      rw [hc]
      exact (((mergeSort_perm kept _).filter _).length_eq).symm
    rw [hout]
    exact (hsub2.eq_of_length hlen).symm
  · intro h0
    subst h0
    have hkeq : (linearIssues.map (fun issue =>
        (issue, compareSlackToLinear slackText issue.title issue.description))).filter
        (fun r => decide ((0 : ℝ) ≤ r.2)) =
        linearIssues.map (fun issue =>
          (issue, compareSlackToLinear slackText issue.title issue.description)) := by
      apply filter_eq_self.mpr
      intro r hr
      obtain ⟨issue, _, rfl⟩ := mem_map.mp hr
      simpa using compareSlackToLinear_nonneg _ _ _
    rw [hout, hkeq]
    exact mergeSort_perm _ _

theorem claim_C4_witness :
    (findSimilarIssues "alpha" [⟨"alpha", none⟩] 0).Perm
      (([⟨"alpha", none⟩] : List TextRecord).map (fun issue =>
        (issue, compareSlackToLinear "alpha" issue.title issue.description))) ∧
    Pairwise (fun a b : TextRecord × ℝ => b.2 ≤ a.2)
      (findSimilarIssues "alpha" [⟨"alpha", none⟩] 0) :=
  ⟨(claim_C4 "alpha" [⟨"alpha", none⟩] 0).2.2.2.2 rfl,
    (claim_C4 "alpha" [⟨"alpha", none⟩] 0).2.2.1⟩

/-- C9: `findConsolidationPairs` picks the strategy purely by record count
against the fixed cutoff 400 — at most 400 records gives the exhaustive
brute-force comparison, more than 400 the bucketed approximation — and in both
cases the final result is sorted by descending similarity score. -/
theorem claim_C9 (issues : List LinearIssue) (threshold : ℝ) :
    (issues.length ≤ 400 →
      findConsolidationPairs issues threshold =
        (bruteForceComparison issues threshold).mergeSort
          (fun a b => decide (b.similarity ≤ a.similarity))) ∧
    (400 < issues.length →
      findConsolidationPairs issues threshold =
        (bucketedComparison issues threshold).mergeSort
          (fun a b => decide (b.similarity ≤ a.similarity))) ∧
    Pairwise (fun p q => q.similarity ≤ p.similarity)
      (findConsolidationPairs issues threshold) := by
  refine ⟨?_, ?_, sorted_findConsolidationPairs issues threshold⟩
  · intro h
    rw [findConsolidationPairs, if_neg (by omega)]
  · intro h
    rw [findConsolidationPairs, if_pos h]

theorem claim_C9_witness :
    (findConsolidationPairs [] 0 =
      (bruteForceComparison [] 0).mergeSort
        (fun a b => decide (b.similarity ≤ a.similarity))) ∧
    (findConsolidationPairs (List.replicate 401 (⟨"1", "t", none⟩ : LinearIssue)) 0 =
      (bucketedComparison (List.replicate 401 (⟨"1", "t", none⟩ : LinearIssue)) 0).mergeSort
        (fun a b => decide (b.similarity ≤ a.similarity))) :=
  ⟨(claim_C9 [] 0).1 (by simp),
    (claim_C9 (List.replicate 401 ⟨"1", "t", none⟩) 0).2.1
      (by simp only [List.length_replicate]; omega)⟩

/-- C2 counterexample: when the input contains two records with the same id,
`findConsolidationPairs` returns a pair whose two record ids are equal, so the
claim fails for arbitrary record lists. -/
theorem claim_C2_counterexample :
    ∃ p ∈ findConsolidationPairs
        [⟨"x", "alpha beta", none⟩, ⟨"x", "alpha beta", none⟩] 0,
      p.issueA.id = p.issueB.id := by
  have hmem : pairAt [⟨"x", "alpha beta", none⟩, ⟨"x", "alpha beta", none⟩] 0 1 ∈
      bruteForceComparison [⟨"x", "alpha beta", none⟩, ⟨"x", "alpha beta", none⟩] 0 :=
    (mem_bruteForce_iff _ _ _).mpr ⟨0, 1, by omega, by decide, simAt_nonneg _ _ _, rfl⟩
  refine ⟨pairAt [⟨"x", "alpha beta", none⟩, ⟨"x", "alpha beta", none⟩] 0 1, ?_, rfl⟩
  rw [mem_findConsolidationPairs, if_neg (by decide)]
  exact hmem

/-- C2 amended: for record lists with pairwise distinct ids, neither strategy
(and hence `findConsolidationPairs`) returns a self-id pair, and no unordered
pair of record ids appears more than once in any of the results. -/
theorem claim_C2_amended (issues : List LinearIssue) (threshold : ℝ)
    (hids : (issues.map (fun iss => iss.id)).Nodup) :
    (∀ p ∈ findConsolidationPairs issues threshold, p.issueA.id ≠ p.issueB.id) ∧
    Pairwise (fun p q => ¬sameUnordered p q) (findConsolidationPairs issues threshold) ∧
    (∀ p ∈ bruteForceComparison issues threshold, p.issueA.id ≠ p.issueB.id) ∧
    Pairwise (fun p q => ¬sameUnordered p q) (bruteForceComparison issues threshold) ∧
    (∀ p ∈ bucketedComparison issues threshold, p.issueA.id ≠ p.issueB.id) ∧
    Pairwise (fun p q => ¬sameUnordered p q) (bucketedComparison issues threshold) := by
  have hbr : ∀ p ∈ bruteForceComparison issues threshold, p.issueA.id ≠ p.issueB.id := by
    intro p hp
    obtain ⟨i, j, hij, hj, _, rfl⟩ := (mem_bruteForce_iff _ _ _).mp hp
    exact pairAt_id_ne issues hids hij hj
  have hbu : ∀ p ∈ bucketedComparison issues threshold, p.issueA.id ≠ p.issueB.id :=
    fun p hp => hbr p (bucketed_subset_brute _ _ p hp)
  have hfc : ∀ p ∈ findConsolidationPairs issues threshold, p.issueA.id ≠ p.issueB.id := by
    intro p hp
    rw [mem_findConsolidationPairs] at hp
    by_cases h : issues.length > 400
    · rw [if_pos h] at hp
      exact hbu p hp
    · rw [if_neg h] at hp
      exact hbr p hp
  have hfp : Pairwise (fun p q => ¬sameUnordered p q)
      (findConsolidationPairs issues threshold) := by
    rw [List.Perm.pairwise_iff (fun h hs => h (sameUnordered_symm hs))
      (perm_findConsolidationPairs issues threshold)]
    by_cases h : issues.length > 400
    · rw [if_pos h]
      exact pairwise_bucketed issues threshold hids
    · rw [if_neg h]
      exact pairwise_bruteForce issues threshold hids
  exact ⟨hfc, hfp, hbr, pairwise_bruteForce issues threshold hids, hbu,
    pairwise_bucketed issues threshold hids⟩

theorem claim_C2_witness :
    Pairwise (fun p q => ¬sameUnordered p q)
      (findConsolidationPairs [⟨"a", "ab", none⟩, ⟨"b", "cd", none⟩] 0) ∧
    (∀ p ∈ findConsolidationPairs [⟨"a", "ab", none⟩, ⟨"b", "cd", none⟩] 0,
      p.issueA.id ≠ p.issueB.id) :=
  ⟨(claim_C2_amended [⟨"a", "ab", none⟩, ⟨"b", "cd", none⟩] 0 (by decide)).2.1,
    (claim_C2_amended [⟨"a", "ab", none⟩, ⟨"b", "cd", none⟩] 0 (by decide)).1⟩

/-- C3 counterexample: a record whose comparable text has one distinct
significant token ("zebra") shares only one signature term with an identical
copy of itself, so the ≥ 2 shared-terms gate rejects the pair and the bucketed
strategy returns nothing at threshold 0.9 although the pair scores 1 ≥ 0.9. -/
theorem claim_C3_counterexample :
    (((issueSigs [⟨"1", "zebra", none⟩, ⟨"1", "zebra", none⟩]).getD 0 []).filter
      (fun t =>
        decide (t ∈ (issueSigs [⟨"1", "zebra", none⟩, ⟨"1", "zebra", none⟩]).getD 1
          []))).length = 1 ∧
    (9 / 10 : ℝ) ≤ simAt [⟨"1", "zebra", none⟩, ⟨"1", "zebra", none⟩] 0 1 ∧
    bucketedComparison [⟨"1", "zebra", none⟩, ⟨"1", "zebra", none⟩] (9 / 10) = [] := by
  have htf : termFrequency (tokenize (comparableText (⟨"1", "zebra", none⟩ : LinearIssue))) =
      [(("zebra".toList : Tok), 1)] := by decide
  have hsig : getTopTokens (comparableText (⟨"1", "zebra", none⟩ : LinearIssue)) 10 =
      ["zebra".toList] := by
    rw [getTopTokens, htf, List.mergeSort_singleton]
    rfl
  have hsigs : issueSigs [⟨"1", "zebra", none⟩, ⟨"1", "zebra", none⟩] =
      [["zebra".toList], ["zebra".toList]] := by
    rw [issueSigs, map_cons, map_cons, map_nil, hsig]
  refine ⟨?_, ?_, ?_⟩
  · rw [hsigs]
    decide
  · have hsim : simAt [⟨"1", "zebra", none⟩, ⟨"1", "zebra", none⟩] 0 1 = 1 := by
      show cosineSimilarity (termFrequency (tokenize (comparableText
          (⟨"1", "zebra", none⟩ : LinearIssue))))
        (termFrequency (tokenize (comparableText (⟨"1", "zebra", none⟩ : LinearIssue)))) = 1
      rw [htf]
      exact cosineSimilarity_self_eq_one _ (by decide) (by decide) (by decide)
    rw [hsim]
    norm_num
  · have hc0 : candsAt [⟨"1", "zebra", none⟩, ⟨"1", "zebra", none⟩] 0 = [(1, 1)] := by
      rw [candsAt, hsigs]
      decide
    have hc1 : candsAt [⟨"1", "zebra", none⟩, ⟨"1", "zebra", none⟩] 1 = [] := by
      rw [candsAt, hsigs]
      decide
    rw [bucketedComparison_eq]
    rw [show List.range
        ([⟨"1", "zebra", none⟩, ⟨"1", "zebra", none⟩] : List LinearIssue).length =
      [0, 1] from rfl]
    rw [flatMap_cons, flatMap_cons, flatMap_nil, hc0, hc1, filterMap_cons, filterMap_nil]
    rw [show emitEntry [⟨"1", "zebra", none⟩, ⟨"1", "zebra", none⟩] (9 / 10) 0 (1, 1) =
        none from by
      rw [emitEntry, if_neg (fun hc => absurd hc.1 (by decide))]]
    simp

/-- C3 amended: once the comparable text of the duplicated record has at least
two distinct significant tokens, two records with identical title and
identical description (their ids may differ) share at least two signature
terms, the bucketed strategy scores the pair — similarity exactly 1 — and
returns it for every threshold ≤ 1. -/
theorem claim_C3_amended (issues : List LinearIssue) (threshold : ℝ) (i j : Nat)
    (hij : i < j) (hj : j < issues.length)
    (htitle : (issues.getD i default).title = (issues.getD j default).title)
    (hdesc : (issues.getD i default).description = (issues.getD j default).description)
    (hcard : 2 ≤ (termFrequency (tokenize (comparableText (issues.getD i default)))).length)
    (hthr : threshold ≤ 1) :
    2 ≤ (((issueSigs issues).getD i []).filter
      (fun t => decide (t ∈ (issueSigs issues).getD j []))).length ∧
    simAt issues i j = 1 ∧
    pairAt issues i j ∈ bucketedComparison issues threshold := by
  have hct : comparableText (issues.getD i default) =
      comparableText (issues.getD j default) := by
    rw [comparableText, comparableText, htitle, hdesc]
  obtain ⟨hmem, hsim⟩ :=
    identical_pair_mem_bucketed issues threshold i j hij hj hct hcard hthr
  refine ⟨?_, hsim, hmem⟩
  have hi : i < issues.length := lt_trans hij hj
  have hsi := issueSigs_getD issues i hi
  have hsj : (issueSigs issues).getD j [] =
      getTopTokens (comparableText (issues.getD i default)) 10 := by
    rw [issueSigs_getD issues j hj, ← hct]
  rw [hsi, hsj, filter_eq_self.mpr (fun t ht => by simpa using ht), length_getTopTokens]
  omega

theorem claim_C3_witness :
    2 ≤ (((issueSigs [⟨"1", "alpha beta", none⟩, ⟨"2", "alpha beta", none⟩]).getD 0
        []).filter
      (fun t =>
        decide (t ∈ (issueSigs [⟨"1", "alpha beta", none⟩, ⟨"2", "alpha beta", none⟩]).getD
          1 []))).length ∧
    simAt [⟨"1", "alpha beta", none⟩, ⟨"2", "alpha beta", none⟩] 0 1 = 1 ∧
    pairAt [⟨"1", "alpha beta", none⟩, ⟨"2", "alpha beta", none⟩] 0 1 ∈
      bucketedComparison [⟨"1", "alpha beta", none⟩, ⟨"2", "alpha beta", none⟩] 0 :=
  claim_C3_amended [⟨"1", "alpha beta", none⟩, ⟨"2", "alpha beta", none⟩] 0 0 1
    (by omega) (by decide) rfl rfl (by decide) zero_le_one

/-- C6 counterexample: two records with identical title and description whose
comparable text has no significant token ("the" is a stopword) receive
similarity 0, not 1, so the unconditional half of the claim fails. -/
theorem claim_C6_counterexample :
    calculateIssueSimilarity ⟨"x", "the", none⟩ ⟨"x", "the", none⟩ = 0 ∧ (0 : ℝ) ≠ 1 := by
  constructor
  · have htok : tokenize (comparableText (⟨"x", "the", none⟩ : LinearIssue)) = [] := by
      decide
    rw [calculateIssueSimilarity, htok]
    exact cosineSimilarity_nil_left _
  · norm_num

/-- C6 amended: a nonempty term-frequency vector with positive counts and
distinct keys (as the data model guarantees) has self-similarity exactly 1,
and two records with identical title and identical description (their ids may
differ) whose comparable text has at least one significant token receive
similarity exactly 1. -/
theorem claim_C6_amended :
    (∀ tf : List (Tok × Nat), tf ≠ [] → (∀ p ∈ tf, 0 < p.2) → (mkeys tf).Nodup →
      cosineSimilarity tf tf = 1) ∧
    (∀ issueA issueB : LinearIssue, issueA.title = issueB.title →
      issueA.description = issueB.description →
      tokenize (comparableText issueA) ≠ [] →
      calculateIssueSimilarity issueA issueB = 1) := by
  refine ⟨cosineSimilarity_self_eq_one, ?_⟩
  intro A B htitle hdesc htok
  have hct : comparableText A = comparableText B := by
    rw [comparableText, comparableText, htitle, hdesc]
  rw [calculateIssueSimilarity, ← hct]
  exact cosineSimilarity_self_eq_one _ (termFrequency_ne_nil _ htok)
    (fun p hp => termFrequency_pos _ p.1 p.2 (by simpa using hp))
    (nodup_mkeys_termFrequency _)

theorem claim_C6_witness :
    ([(['a', 'b'], 2)] : List (Tok × Nat)) ≠ [] ∧
    (∀ p ∈ ([(['a', 'b'], 2)] : List (Tok × Nat)), 0 < p.2) ∧
    (mkeys ([(['a', 'b'], 2)] : List (Tok × Nat))).Nodup ∧
    cosineSimilarity [(['a', 'b'], 2)] [(['a', 'b'], 2)] = 1 ∧
    tokenize (comparableText ⟨"x", "widget", none⟩) ≠ [] ∧
    calculateIssueSimilarity ⟨"x", "widget", none⟩ ⟨"y", "widget", none⟩ = 1 :=
  ⟨by decide, by decide, by decide,
    claim_C6_amended.1 _ (by decide) (by decide) (by decide),
    by decide, claim_C6_amended.2 _ _ rfl rfl (by decide)⟩

end KapaCheck
